import Mathlib

/-!
RLE bitmap decoder of rdpy (`lib/src/rle.c`, `lib/src/rle_m.h`)

Shallow embedding of `rle_decode_uint8`, `rle_decode_uint16` and
`rle_decode_uint24`.  The three C functions are the same text up to the number
of bytes handled per pixel (every pixel statement is unrolled once per byte and
the row stride is `width`, `width * 2`, `width * 3`), so the embedding is one
decoder `rle_decode bpp` and the three entry points instantiate it at 1, 2, 3.

Conventions of the embedding

* `input` is the memory seen through the C pointer `input`: `input i` is the
  byte at `input + i`, for every `i`, also for `i ≥ size` (the macro `CVAL`
  dereferences without any test).  `pos` is the distance the pointer has
  advanced, `size` the argument of the same name, so `input < end` is
  `pos < size`.
* `output` is the memory seen through the C pointer `output`.  `line` and
  `prevline` are `none` for the null pointer and `some off` for `output + off`.
* `char` stores keep the low eight bits (`% 256`); `CVAL` yields an
  `unsigned char`.
* `width` and `height` are natural numbers: the contract of the decoder is
  `width > 0`, `height ≥ 0`.  `int` arithmetic does not wrap below `2^31`, which
  all counters respect as long as the raster size `width * height * bpp` does.
* `B_ENDIAN` is not defined anywhere in the repository, so `EIK0 = 0` and
  `EIK1 = 1`: two-byte values are taken from the input in storage order.
* `log` is a ghost trace: one entry per pixel store, in program order, with the
  row pointer, the column and the bytes stored.  No decision of the decoder
  reads it.
* Loops take a fuel argument that is an upper bound of their number of passes
  (`REPEAT`: `width - x`; run body: `(height + 1) * (width + 1)`; run loop:
  `size`).  Lemmas below show that the bound is never hit first.
-/

namespace Rle

/-- One pixel store `line[x * bpp + k] = px[k]`, `k < bpp`, as recorded in the trace. -/
structure Write where
  line : Option Nat
  x : Nat
  px : List Nat
deriving DecidableEq, Repr

/-- The local variables of `rle_decode_uintN`, the output memory and the write trace. -/
structure State where
  output : Nat → Nat
  log : List Write
  pos : Nat
  height : Nat
  prevline : Option Nat
  line : Option Nat
  color1 : List Nat
  color2 : List Nat
  mix : List Nat
  mixmask : Nat
  mask : Nat
  opcode : Nat
  count : Nat
  x : Nat
  lastopcode : Int
  insertmix : Bool
  bicolor : Bool
  fom_mask : Nat

/-- The value returned (`ok = true` for `return 1`, `false` for `return 0`) and the
state of the locals and of the output at the `return`. -/
structure Result where
  ok : Bool
  st : State

/-- The macro `CVAL(p)`: `(unsigned char)(*(p++))`, with no comparison against `end`. -/
def CVAL (input : Nat → Nat) (s : State) : Nat × State :=
  (input s.pos % 256, { s with pos := s.pos + 1 })

/-- Reading `n` consecutive bytes with `CVAL` (one pixel or colour of `n` bytes). -/
def CVALn (input : Nat → Nat) : Nat → State → List Nat × State
  | 0, s => ([], s)
  | n + 1, s =>
    let r := CVAL input s
    let q := CVALn input n r.2
    (r.1 :: q.1, q.2)

/-- Successive `char` stores `p[off] = b0; p[off + 1] = b1; ...`. -/
def storeBytes (out : Nat → Nat) (off : Nat) : List Nat → Nat → Nat
  | [] => out
  | b :: bs => storeBytes (fun o => if o = off then b % 256 else out o) (off + 1) bs

/-- The bytes `p[x * bpp + 0], ..., p[x * bpp + bpp - 1]` of the row at offset `p`. -/
def peek (bpp : Nat) (out : Nat → Nat) (p x : Nat) : List Nat :=
  (List.range bpp).map (fun k => out (p + x * bpp + k))

/-- Bytewise `a[k] ^ b[k]`. -/
def pxor (a b : List Nat) : List Nat :=
  List.zipWith (fun p m => p ^^^ m) a b

/-- The pixel statement `line[x * bpp + k] = v[k]` for `k < bpp`. -/
def poke (bpp : Nat) (s : State) (v : List Nat) : State :=
  { s with
    output :=
      match s.line with
      | some l => storeBytes s.output (l + s.x * bpp) v
      | none => s.output
    log := s.log ++ [{ line := s.line, x := s.x, px := v.map (fun b => b % 256) }] }

/-- The tail of a pass of `REPEAT`: `count--; x++;`. -/
def advance (t : State) : State :=
  { t with count := t.count - 1, x := t.x + 1 }

/-- The macro `REPEAT(statement)`:
`while ((count > 0) && (x < width)) { statement; count--; x++; }`.
The first argument bounds the number of passes; it is called with `width - x`. -/
def REPEAT (width : Nat) (statement : State → State) : Nat → State → State
  | 0, s => s
  | n + 1, s =>
    if 0 < s.count ∧ s.x < width then
      REPEAT width statement n (advance (statement s))
    else s

/-- The macro `MASK_UPDATE`. -/
def MASK_UPDATE (input : Nat → Nat) (s : State) : State :=
  let s1 := { s with mixmask := s.mixmask <<< 1 }
  if s1.mixmask &&& 0xff = 0 then
    if s1.fom_mask ≠ 0 then
      { s1 with mask := s1.fom_mask, mixmask := 1 }
    else
      let r := CVAL input s1
      { r.2 with mask := r.1, mixmask := 1 }
  else s1

/-- The all-zero pixel. -/
def zeroPx (bpp : Nat) : List Nat := List.replicate bpp 0

/-- The all-ones pixel (`0xff` in every byte). -/
def whitePx (bpp : Nat) : List Nat := List.replicate bpp 0xff

/-- Statement of `case 0` (Fill): `line[x] = 0`, or `line[x] = prevline[x]`. -/
def stFill (bpp : Nat) (prevline : Option Nat) (s : State) : State :=
  match prevline with
  | none => poke bpp s (zeroPx bpp)
  | some p => poke bpp s (peek bpp s.output p s.x)

/-- Statement of `case 1` (Mix): `line[x] = mix`, or `line[x] = prevline[x] ^ mix`. -/
def stMix (bpp : Nat) (prevline : Option Nat) (s : State) : State :=
  match prevline with
  | none => poke bpp s s.mix
  | some p => poke bpp s (pxor (peek bpp s.output p s.x) s.mix)

/-- Statement of `case 2` (Fill or Mix): `MASK_UPDATE`, then the Mix statement when
`mask & mixmask` is non-zero and the Fill statement otherwise. -/
def stFillOrMix (bpp : Nat) (input : Nat → Nat) (prevline : Option Nat) (s : State) : State :=
  let s1 := MASK_UPDATE input s
  if s1.mask &&& s1.mixmask ≠ 0 then stMix bpp prevline s1 else stFill bpp prevline s1

/-- Statement of `case 3` (Color): `line[x] = color2`. -/
def stColor (bpp : Nat) (s : State) : State :=
  poke bpp s s.color2

/-- Statement of `case 4` (Copy): `line[x] = CVAL(input)`, one `CVAL` per byte. -/
def stCopy (bpp : Nat) (input : Nat → Nat) (s : State) : State :=
  let r := CVALn input bpp s
  poke bpp r.2 r.1

/-- Statement of `case 8` (Bicolor). -/
def stBicolor (bpp : Nat) (s : State) : State :=
  if s.bicolor then
    { poke bpp s s.color2 with bicolor := false }
  else
    let t := poke bpp s s.color1
    { t with bicolor := true, count := t.count + 1 }

/-- Statement of `case 0xd` (White). -/
def stWhite (bpp : Nat) (s : State) : State :=
  poke bpp s (whitePx bpp)

/-- Statement of `case 0xe` (Black). -/
def stBlack (bpp : Nat) (s : State) : State :=
  poke bpp s (zeroPx bpp)

/-- The head of the run body: `if (x >= width) { if (height <= 0) return 0; x = 0;
height--; prevline = line; line = output + height * (width * bpp); }`.
`none` is the `return 0`. -/
def openRow (bpp width : Nat) (s : State) : Option State :=
  if width ≤ s.x then
    if s.height ≤ 0 then none
    else
      some { s with
        x := 0
        height := s.height - 1
        prevline := s.line
        line := some ((s.height - 1) * (width * bpp)) }
  else some s

/-- The `if (insertmix) { ... }` block at the head of `case 0`. -/
def insertMix (bpp : Nat) (s : State) : State :=
  if s.insertmix then
    { advance (stMix bpp s.prevline s) with insertmix := false }
  else s

/-- The `switch (opcode)` of the run body; `none` is the `return 0` of `default`. -/
def bodySwitch (bpp width : Nat) (input : Nat → Nat) (s : State) : Option State :=
  if s.opcode = 0 then
    let t := insertMix bpp s
    some (REPEAT width (stFill bpp t.prevline) (width - t.x) t)
  else if s.opcode = 1 then
    some (REPEAT width (stMix bpp s.prevline) (width - s.x) s)
  else if s.opcode = 2 then
    some (REPEAT width (stFillOrMix bpp input s.prevline) (width - s.x) s)
  else if s.opcode = 3 then
    some (REPEAT width (stColor bpp) (width - s.x) s)
  else if s.opcode = 4 then
    some (REPEAT width (stCopy bpp input) (width - s.x) s)
  else if s.opcode = 8 then
    some (REPEAT width (stBicolor bpp) (width - s.x) s)
  else if s.opcode = 0xd then
    some (REPEAT width (stWhite bpp) (width - s.x) s)
  else if s.opcode = 0xe then
    some (REPEAT width (stBlack bpp) (width - s.x) s)
  else none

/-- The loop `while (count > 0) { ... }` ("Output body").  The Boolean is `false`
when the loop left the function through `return 0`. -/
def body (bpp width : Nat) (input : Nat → Nat) : Nat → State → Bool × State
  | 0, s => (true, s)
  | n + 1, s =>
    if 0 < s.count then
      match openRow bpp width s with
      | none => (false, s)
      | some s1 =>
        match bodySwitch bpp width input s1 with
        | none => (false, s1)
        | some s2 => body bpp width input n s2
    else (true, s)

/-- The first `switch (opcode)` ("Handle different opcode forms"), with the read of
`code`.  Returns the state and the local `offset`. -/
def opcodeForm (input : Nat → Nat) (s : State) : State × Nat :=
  let r := CVAL input s
  let code := r.1
  let opcode := code >>> 4
  if opcode = 0xc ∨ opcode = 0xd ∨ opcode = 0xe then
    ({ r.2 with opcode := opcode - 6, count := code &&& 0xf }, 16)
  else if opcode = 0xf then
    let opcode := code &&& 0xf
    if opcode < 9 then
      let b0 := CVAL input r.2
      let b1 := CVAL input b0.2
      ({ b1.2 with opcode := opcode, count := b0.1 ||| (b1.1 <<< 8) }, 0)
    else
      ({ r.2 with opcode := opcode, count := if opcode < 0xb then 8 else 1 }, 0)
  else
    ({ r.2 with opcode := opcode >>> 1, count := code &&& 0x1f }, 32)

/-- The block "Handle strange cases for counts". -/
def countAdjust (input : Nat → Nat) (s : State) (offset : Nat) : State :=
  if offset ≠ 0 then
    let isfillormix : Bool := s.opcode = 2 ∨ s.opcode = 7
    if s.count = 0 then
      let r := CVAL input s
      if isfillormix then { r.2 with count := r.1 + 1 }
      else { r.2 with count := r.1 + offset }
    else if isfillormix then { s with count := s.count <<< 3 }
    else s
  else s

/-- The second `switch (opcode)` ("Read preliminary data"). -/
def preliminary (bpp width : Nat) (input : Nat → Nat) (s : State) : State :=
  if s.opcode = 0 then
    if s.lastopcode = (s.opcode : Int) ∧ ¬ (s.x = width ∧ s.prevline = none) then
      { s with insertmix := true }
    else s
  else if s.opcode = 8 then
    let c1 := CVALn input bpp s
    let c2 := CVALn input bpp c1.2
    { c2.2 with color1 := c1.1, color2 := c2.1 }
  else if s.opcode = 3 then
    let c2 := CVALn input bpp s
    { c2.2 with color2 := c2.1 }
  else if s.opcode = 6 ∨ s.opcode = 7 then
    let m := CVALn input bpp s
    { m.2 with mix := m.1, opcode := s.opcode - 5 }
  else if s.opcode = 9 then
    { s with mask := 0x03, opcode := 0x02, fom_mask := 3 }
  else if s.opcode = 0xa then
    { s with mask := 0x05, opcode := 0x02, fom_mask := 5 }
  else s

/-- Everything of one pass of the outer loop that precedes the run body: the read
of the code byte, the count, the operands, `lastopcode = opcode; mixmask = 0`. -/
def header (bpp width : Nat) (input : Nat → Nat) (s : State) : State :=
  let f := opcodeForm input { s with fom_mask := 0 }
  let s1 := countAdjust input f.1 f.2
  let s2 := preliminary bpp width input s1
  { s2 with lastopcode := (s2.opcode : Int), mixmask := 0 }

/-- One pass of the loop `while (input < end)`: one run. -/
def run (bpp width : Nat) (input : Nat → Nat) (s : State) : Bool × State :=
  let h := header bpp width input s
  body bpp width input ((h.height + 1) * (width + 1)) h

/-- The loop `while (input < end) { ... } return 1;`. -/
def runs (bpp width : Nat) (input : Nat → Nat) (size : Nat) : Nat → State → Result
  | 0, s => { ok := true, st := s }
  | n + 1, s =>
    if s.pos < size then
      match run bpp width input s with
      | (false, s1) => { ok := false, st := s1 }
      | (true, s1) => runs bpp width input size n s1
    else { ok := true, st := s }

/-- The initialisations at the head of `rle_decode_uintN`.  `mixmask`, `opcode` and
`count` have no initialiser in C; each pass of the outer loop assigns them before it
reads them, and they start at 0 here. -/
def init (bpp : Nat) (output : Nat → Nat) (width height : Nat) : State :=
  { output := output
    log := []
    pos := 0
    height := height
    prevline := none
    line := none
    color1 := zeroPx bpp
    color2 := zeroPx bpp
    mix := whitePx bpp
    mixmask := 0
    mask := 0
    opcode := 0
    count := 0
    x := width
    lastopcode := -1
    insertmix := false
    bicolor := false
    fom_mask := 0 }

/-- The decoder for pixels of `bpp` bytes. -/
def rle_decode (bpp : Nat) (output : Nat → Nat) (width height : Nat) (input : Nat → Nat)
    (size : Nat) : Result :=
  runs bpp width input size size (init bpp output width height)

/-- `rle_decode_uint8`. -/
def rle_decode_uint8 (output : Nat → Nat) (width height : Nat) (input : Nat → Nat)
    (size : Nat) : Result :=
  rle_decode 1 output width height input size

/-- `rle_decode_uint16`. -/
def rle_decode_uint16 (output : Nat → Nat) (width height : Nat) (input : Nat → Nat)
    (size : Nat) : Result :=
  rle_decode 2 output width height input size

/-- The memory behind a byte list, zero beyond its end. -/
def bytes (l : List Nat) : Nat → Nat := fun i => l.getD i 0

/-! ## Predicates used in the statements -/

/-- Byte offset of the row that receives the pixel number `i` of the stream (pixels
counted from 0 in the order they are emitted): row `H - 1 - i / W`. -/
def rowOff (bpp W H i : Nat) : Nat := (H - 1 - i / W) * (W * bpp)

/-- Number of pixel positions not yet written: the rest of the open row and the
rows not yet opened. -/
def room (W : Nat) (s : State) : Nat := s.height * W + (W - s.x)

/-- The part of the state that only `openRow` and the pixel statements change is
the same in `s` and `t`, and the input cursor did not move back. -/
structure Same (s t : State) : Prop where
  output : t.output = s.output
  log : t.log = s.log
  height : t.height = s.height
  prevline : t.prevline = s.prevline
  line : t.line = s.line
  x : t.x = s.x
  pos : s.pos ≤ t.pos

/-- What a pixel statement leaves alone before its store. -/
structure Keep (s t : State) extends Same s t : Prop where
  color1 : t.color1 = s.color1
  color2 : t.color2 = s.color2
  mix : t.mix = s.mix
  opcode : t.opcode = s.opcode
  lastopcode : t.lastopcode = s.lastopcode
  insertmix : t.insertmix = s.insertmix
  count : s.count ≤ t.count

/-- The three colour variables hold `bpp` bytes. -/
structure Lens (bpp : Nat) (s : State) : Prop where
  c1 : s.color1.length = bpp
  c2 : s.color2.length = bpp
  mx : s.mix.length = bpp

/-- A pixel statement: some bookkeeping that keeps `Keep`, then one store of a
pixel of `bpp` bytes at `line[x]`. -/
def Stmt (bpp : Nat) (st : State → State) : Prop :=
  ∀ s, Lens bpp s → ∃ t v, st s = poke bpp t v ∧ v.length = bpp ∧ Keep s t

/-- The cursor invariant of a decode of a `W` by `H` raster of `bpp`-byte pixels. -/
structure Inv (bpp W H : Nat) (s : State) extends Lens bpp s : Prop where
  xle : s.x ≤ W
  hle : s.height ≤ H
  cnt : s.log.length + (W - s.x) = (H - s.height) * W
  line_none : s.height = H → s.line = none ∧ s.prevline = none
  line_some : s.height < H → s.line = some (s.height * (W * bpp))
  prev_none : s.height + 1 = H → s.prevline = none
  prev_some : s.height + 1 < H → s.prevline = some ((s.height + 1) * (W * bpp))
  ent : ∀ i e, s.log[i]? = some e →
    e.line = some (rowOff bpp W H i) ∧ e.x = i % W ∧ e.px.length = bpp ∧
      peek bpp s.output (rowOff bpp W H i) (i % W) = e.px

/-- From `s` to `t` the trace was only appended to, the input cursor did not move
back, no row was given back and the run kind was not touched. -/
structure Ext (s t : State) : Prop where
  log : s.log <+: t.log
  pos : s.pos ≤ t.pos
  height : t.height ≤ s.height
  opcode : t.opcode = s.opcode
  lastopcode : t.lastopcode = s.lastopcode

/-- The row pointers are the same in `s` and `t`. -/
structure RowSame (s t : State) : Prop where
  height : t.height = s.height
  prevline : t.prevline = s.prevline
  line : t.line = s.line

/-- The run kinds that have a `case` in the `switch` of the run body. -/
def hasBody (opcode : Nat) : Prop :=
  opcode = 0 ∨ opcode = 1 ∨ opcode = 2 ∨ opcode = 3 ∨ opcode = 4 ∨ opcode = 8 ∨
    opcode = 0xd ∨ opcode = 0xe

instance (opcode : Nat) : Decidable (hasBody opcode) := by
  unfold hasBody
  infer_instance

/-- The memory obtained from `out` by doing the stores of a trace in order. -/
def replay (bpp : Nat) (out : Nat → Nat) : List Write → Nat → Nat
  | [] => out
  | e :: es =>
    replay bpp
      (match e.line with
       | some l => storeBytes out (l + e.x * bpp) e.px
       | none => out) es

/-- A property of the output memory and the trace that every pixel store keeps. -/
def StoreStable (bpp : Nat) (Q : (Nat → Nat) → List Write → Prop) : Prop :=
  ∀ (out : Nat → Nat) (log : List Write) (line : Option Nat) (x : Nat) (v : List Nat),
    v.length = bpp → Q out log →
    Q (match line with
       | some l => storeBytes out (l + x * bpp) v
       | none => out)
      (log ++ [{ line := line, x := x, px := v.map (fun b => b % 256) }])

/-- The run body taken pixel by pixel: while `count > 0`, open a row if the cursor is
at `width` (or return 0), do the pixel statement once, `count--; x++`.  Used to
reason about `body`, which does the same passes grouped row by row. -/
def flat (bpp W : Nat) (st : State → State) : Nat → State → Bool × State
  | 0, s => (true, s)
  | k + 1, s =>
    if 0 < s.count then
      match openRow bpp W s with
      | none => (false, s)
      | some s1 => flat bpp W st k (advance (st s1))
    else (true, s)

/-- The pixel statement of a run kind, with `prevline` taken from the state. -/
def kindStmt (bpp : Nat) (input : Nat → Nat) (kind : Nat) (s : State) : State :=
  if kind = 0 then stFill bpp s.prevline s
  else if kind = 1 then stMix bpp s.prevline s
  else if kind = 2 then stFillOrMix bpp input s.prevline s
  else if kind = 3 then stColor bpp s
  else if kind = 4 then stCopy bpp input s
  else if kind = 8 then stBicolor bpp s
  else if kind = 0xd then stWhite bpp s
  else stBlack bpp s

/-- The pixel one row below the stream position `i` of a raster of width `W`: pixel
`i - W` of the trace, and the zero pixel for the positions of the bottom row.  It
is the value `pv` that the Fill and Mix statements take through `prevline`. -/
def pvAt (bpp W : Nat) (log : List Write) (i : Nat) : List Nat :=
  if i < W then zeroPx bpp
  else
    match log[i - W]? with
    | some e => e.px
    | none => []

/-- The bytes of the pixel number `j` that follows position `p` of the input. -/
def lit (bpp : Nat) (input : Nat → Nat) (p j : Nat) : List Nat :=
  (List.range bpp).map (fun i => input (p + j * bpp + i) % 256)

/-- The state after the code byte and the count of a run have been read, before the
operands: the first two blocks of a pass of the outer loop. -/
def resolve (input : Nat → Nat) (s : State) : State :=
  countAdjust input (opcodeForm input { s with fom_mask := 0 }).1
    (opcodeForm input { s with fom_mask := 0 }).2


/-- The count adjustment of the specification (§4.1 step 3), for the short and the
general forms: with `count = 0` one extra byte `b` is read and the count is `b + 1`
for the fill-or-mix kinds 2 and 7 and `b + base` otherwise; a non-zero count is
multiplied by 8 for the kinds 2 and 7.  Returns the kind, the count and the number
of bytes read after the code byte. -/
def specCount (kind count base : Nat) (b : Nat → Nat) : Nat × Nat × Nat :=
  if count = 0 then
    (kind, (if kind = 2 ∨ kind = 7 then b 0 + 1 else b 0 + base), 1)
  else
    (kind, (if kind = 2 ∨ kind = 7 then count * 8 else count), 0)

/-- Opcode resolution in the words of the specification (§4.1 steps 1 to 3) for the
code byte `c` and the bytes `b 0`, `b 1`, ... that follow it.  Returns the kind, the
count and the number of bytes read after the code byte. -/
def specResolve (c : Nat) (b : Nat → Nat) : Nat × Nat × Nat :=
  if c >>> 4 = 0xC ∨ c >>> 4 = 0xD ∨ c >>> 4 = 0xE then
    specCount (c >>> 4 - 6) (c &&& 0xF) 16 b
  else if c >>> 4 = 0xF then
    if c &&& 0xF < 9 then (c &&& 0xF, b 0 + 256 * b 1, 2)
    else (c &&& 0xF, (if c &&& 0xF < 0xB then 8 else 1), 0)
  else
    specCount (c >>> 4 >>> 1) (c &&& 0x1F) 32 b

/-- All elements of a pixel or colour are bytes. -/
def Bytes (l : List Nat) : Prop := ∀ b ∈ l, b < 256

/-- Every pixel of the trace consists of bytes. -/
def ByteLog (log : List Write) : Prop := ∀ e ∈ log, Bytes e.px

instance (l : List Nat) : Decidable (Bytes l) := by
  unfold Bytes
  infer_instance

instance (log : List Write) : Decidable (ByteLog log) := by
  unfold ByteLog
  infer_instance

/-- The phase of the Bicolor toggle: it is in its initial phase, or the decoder is
inside a Bicolor run (kind 8) that still has pixels to write. -/
def Toggle (s : State) : Prop := s.bicolor = false ∨ (s.opcode = 8 ∧ 0 < s.count)

/-- The states `s` and `t` agree in every local variable and in the trace; only the
contents of the output memory may differ. -/
def Sim (s t : State) : Prop := ∃ o, t = { s with output := o }

/-! ## Basic facts about reads and stores -/

@[simp] theorem CVAL_fst (input : Nat → Nat) (s : State) : (CVAL input s).1 = input s.pos % 256 := rfl
@[simp] theorem CVAL_snd (input : Nat → Nat) (s : State) : (CVAL input s).2 = { s with pos := s.pos + 1 } := rfl

theorem CVALn_snd (input : Nat → Nat) (n : Nat) (s : State) :
    (CVALn input n s).2 = { s with pos := s.pos + n } := by
  induction n generalizing s with
  | zero => rfl
  | succ n ih =>
    simp only [CVALn, ih, CVAL_snd]
    congr 1
    omega

theorem CVALn_fst (input : Nat → Nat) (n : Nat) (s : State) :
    (CVALn input n s).1 = (List.range n).map (fun k => input (s.pos + k) % 256) := by
  induction n generalizing s with
  | zero => rfl
  | succ n ih =>
    simp only [CVALn, ih, CVAL_snd, CVAL_fst, List.range_succ_eq_map, List.map_cons, List.map_map]
    simp [Function.comp_def, Nat.add_assoc, Nat.add_comm 1]

theorem storeBytes_apply (v : List Nat) (out : Nat → Nat) (off o : Nat) :
    storeBytes out off v o = if off ≤ o ∧ o < off + v.length then v.getD (o - off) 0 % 256 else out o := by
  induction v generalizing out off with
  | nil =>
    have : ¬ (off ≤ o ∧ o < off) := by omega
    simp [storeBytes, this]
  | cons b bs ih =>
    simp only [storeBytes, ih, List.length_cons]
    by_cases h1 : o = off
    · subst h1; simp
    · by_cases h2 : off + 1 ≤ o ∧ o < off + 1 + bs.length
      · have h3 : off ≤ o ∧ o < off + (bs.length + 1) := by omega
        simp only [h2, h3, and_self, if_true]
        have : o - off = (o - (off + 1)) + 1 := by omega
        rw [this, List.getD_cons_succ]
      · have h3 : ¬ (off ≤ o ∧ o < off + (bs.length + 1)) := by omega
        simp [h2, h3, h1]

theorem peek_length (bpp : Nat) (out : Nat → Nat) (p x : Nat) : (peek bpp out p x).length = bpp := by
  simp [peek]

theorem peek_congr {bpp : Nat} {out out' : Nat → Nat} {p x : Nat}
    (h : ∀ k, k < bpp → out' (p + x * bpp + k) = out (p + x * bpp + k)) :
    peek bpp out' p x = peek bpp out p x := by
  unfold peek
  apply List.map_congr_left
  intro k hk
  exact h k (List.mem_range.mp hk)

theorem peek_storeBytes_self (bpp : Nat) (out : Nat → Nat) (off : Nat) (v : List Nat) (x l : Nat)
    (hv : v.length = bpp) (ho : off = l + x * bpp) :
    peek bpp (storeBytes out off v) l x = v.map (fun b => b % 256) := by
  subst ho
  apply List.ext_getElem
  · simp [peek, hv]
  · intro k h1 h2
    simp only [peek, List.getElem_map, List.getElem_range, storeBytes_apply]
    have hk : k < bpp := by simpa [peek] using h1
    have : l + x * bpp ≤ l + x * bpp + k ∧ l + x * bpp + k < l + x * bpp + v.length := by omega
    simp only [this, and_self, if_true, Nat.add_sub_cancel_left]
    rw [List.getD_eq_getElem _ _ (by omega)]

theorem euclid_unique {a b c d W : Nat} (hb : b < W) (hd : d < W) (h : a * W + b = c * W + d) :
    a = c ∧ b = d := by
  have hW : 0 < W := by omega
  have h1 : (a * W + b) / W = a := by
    rw [Nat.add_comm, Nat.add_mul_div_right _ _ hW, Nat.div_eq_of_lt hb, Nat.zero_add]
  have h2 : (c * W + d) / W = c := by
    rw [Nat.add_comm, Nat.add_mul_div_right _ _ hW, Nat.div_eq_of_lt hd, Nat.zero_add]
  have hac : a = c := by rw [← h1, ← h2, h]
  subst hac
  exact ⟨rfl, by omega⟩
/-! ## Pixel statements and what they leave alone -/

theorem Same.srefl (s : State) : Same s s := ⟨rfl, rfl, rfl, rfl, rfl, rfl, Nat.le_refl _⟩

theorem Keep.krefl (s : State) : Keep s s := ⟨Same.srefl s, rfl, rfl, rfl, rfl, rfl, rfl, Nat.le_refl _⟩

theorem Same.strans {s t u : State} (h1 : Same s t) (h2 : Same t u) : Same s u :=
  ⟨h2.output.trans h1.output, h2.log.trans h1.log, h2.height.trans h1.height,
    h2.prevline.trans h1.prevline, h2.line.trans h1.line, h2.x.trans h1.x,
    Nat.le_trans h1.pos h2.pos⟩

theorem Lens.of_keep {bpp : Nat} {s t : State} (h : Keep s t) (hl : Lens bpp s) : Lens bpp t :=
  ⟨by rw [h.color1]; exact hl.c1, by rw [h.color2]; exact hl.c2, by rw [h.mix]; exact hl.mx⟩

theorem MASK_UPDATE_keep (input : Nat → Nat) (s : State) : Keep s (MASK_UPDATE input s) := by
  unfold MASK_UPDATE
  simp only []
  split
  · split
    · exact ⟨⟨rfl, rfl, rfl, rfl, rfl, rfl, Nat.le_refl _⟩, rfl, rfl, rfl, rfl, rfl, rfl, Nat.le_refl _⟩
    · exact ⟨⟨rfl, rfl, rfl, rfl, rfl, rfl, Nat.le_succ _⟩, rfl, rfl, rfl, rfl, rfl, rfl, Nat.le_refl _⟩
  · exact ⟨⟨rfl, rfl, rfl, rfl, rfl, rfl, Nat.le_refl _⟩, rfl, rfl, rfl, rfl, rfl, rfl, Nat.le_refl _⟩

theorem pxor_length (a b : List Nat) : (pxor a b).length = min a.length b.length := by
  simp [pxor]

theorem stmt_stFill (bpp : Nat) (p : Option Nat) : Stmt bpp (stFill bpp p) := by
  intro s _
  cases p with
  | none => exact ⟨s, zeroPx bpp, rfl, by simp [zeroPx], Keep.krefl s⟩
  | some p => exact ⟨s, peek bpp s.output p s.x, rfl, peek_length _ _ _ _, Keep.krefl s⟩

theorem stmt_stMix (bpp : Nat) (p : Option Nat) : Stmt bpp (stMix bpp p) := by
  intro s hl
  cases p with
  | none => exact ⟨s, s.mix, rfl, hl.mx, Keep.krefl s⟩
  | some p =>
    exact ⟨s, pxor (peek bpp s.output p s.x) s.mix, rfl,
      by simp [pxor_length, peek_length, hl.mx], Keep.krefl s⟩

theorem stmt_stFillOrMix (bpp : Nat) (input : Nat → Nat) (p : Option Nat) :
    Stmt bpp (stFillOrMix bpp input p) := by
  intro s hl
  have hk := MASK_UPDATE_keep input s
  have hl1 := Lens.of_keep hk hl
  unfold stFillOrMix
  simp only []
  split
  · cases p with
    | none => exact ⟨MASK_UPDATE input s, _, rfl, hl1.mx, hk⟩
    | some p =>
      exact ⟨MASK_UPDATE input s, _, rfl, by simp [pxor_length, peek_length, hl1.mx], hk⟩
  · cases p with
    | none => exact ⟨MASK_UPDATE input s, zeroPx bpp, rfl, by simp [zeroPx], hk⟩
    | some p => exact ⟨MASK_UPDATE input s, _, rfl, peek_length _ _ _ _, hk⟩

theorem stmt_stColor (bpp : Nat) : Stmt bpp (stColor bpp) := by
  intro s hl
  exact ⟨s, s.color2, rfl, hl.c2, Keep.krefl s⟩

theorem stmt_stCopy (bpp : Nat) (input : Nat → Nat) : Stmt bpp (stCopy bpp input) := by
  intro s _
  refine ⟨(CVALn input bpp s).2, (CVALn input bpp s).1, rfl, by simp [CVALn_fst], ?_⟩
  rw [CVALn_snd]
  exact ⟨⟨rfl, rfl, rfl, rfl, rfl, rfl, Nat.le_add_right _ _⟩, rfl, rfl, rfl, rfl, rfl, rfl,
    Nat.le_refl _⟩

theorem stmt_stBicolor (bpp : Nat) : Stmt bpp (stBicolor bpp) := by
  intro s hl
  unfold stBicolor
  split
  · exact ⟨{ s with bicolor := false }, s.color2, rfl, hl.c2,
      ⟨rfl, rfl, rfl, rfl, rfl, rfl, Nat.le_refl _⟩, rfl, rfl, rfl, rfl, rfl, rfl, Nat.le_refl _⟩
  · exact ⟨{ s with bicolor := true, count := s.count + 1 }, s.color1, rfl, hl.c1,
      ⟨rfl, rfl, rfl, rfl, rfl, rfl, Nat.le_refl _⟩, rfl, rfl, rfl, rfl, rfl, rfl, Nat.le_succ _⟩

theorem stmt_stWhite (bpp : Nat) : Stmt bpp (stWhite bpp) := by
  intro s _
  exact ⟨s, whitePx bpp, rfl, by simp [whitePx], Keep.krefl s⟩

theorem stmt_stBlack (bpp : Nat) : Stmt bpp (stBlack bpp) := by
  intro s _
  exact ⟨s, zeroPx bpp, rfl, by simp [zeroPx], Keep.krefl s⟩

/-- Under the invariant, an open row (`x < W`) is the row `height` and `log.length`
is the stream index of the position `(height, x)`. -/
theorem Inv.open_row {bpp W H : Nat} {s : State} (h : Inv bpp W H s) (hx : s.x < W) :
    s.height < H ∧ s.log.length = (H - s.height - 1) * W + s.x := by
  have hc := h.cnt
  have hh := h.hle
  have h1 : s.height < H := by
    rcases Nat.lt_or_ge s.height H with h1 | h1
    · exact h1
    · have : H - s.height = 0 := by omega
      rw [this, Nat.zero_mul] at hc
      omega
  refine ⟨h1, ?_⟩
  have h2 : H - s.height = (H - s.height - 1) + 1 := by omega
  rw [h2, Nat.add_mul, Nat.one_mul] at hc
  omega

theorem Inv.log_lt {bpp W H : Nat} {s : State} (h : Inv bpp W H s) (hx : s.x < W) :
    s.log.length < H * W := by
  obtain ⟨h1, h2⟩ := h.open_row hx
  have : (H - s.height - 1) * W + W ≤ H * W := by
    have : (H - s.height - 1) + 1 ≤ H := by omega
    calc (H - s.height - 1) * W + W = ((H - s.height - 1) + 1) * W := by ring
      _ ≤ H * W := Nat.mul_le_mul_right _ this
  omega

theorem Inv.log_le {bpp W H : Nat} {s : State} (h : Inv bpp W H s) :
    s.log.length ≤ H * W := by
  have hc := h.cnt
  have : (H - s.height) * W ≤ H * W := Nat.mul_le_mul_right _ (Nat.sub_le _ _)
  omega
/-! ## The cursor invariant and its preservation by every loop -/

theorem rowOff_add (bpp W H i k : Nat) :
    rowOff bpp W H i + i % W * bpp + k = ((H - 1 - i / W) * W + i % W) * bpp + k := by
  unfold rowOff
  ring

theorem pix_disjoint {bpp W H i n k k' : Nat} (hi : i < H * W) (hn : n < H * W) (hne : i ≠ n)
    (hk : k < bpp) (hk' : k' < bpp) :
    rowOff bpp W H i + i % W * bpp + k ≠ rowOff bpp W H n + n % W * bpp + k' := by
  intro h
  rw [rowOff_add, rowOff_add] at h
  have hW : 0 < W := by
    rcases Nat.eq_zero_or_pos W with h0 | h0
    · subst h0; simp at hi
    · exact h0
  obtain ⟨h1, _⟩ := euclid_unique hk hk' h
  obtain ⟨h2, h3⟩ := euclid_unique (Nat.mod_lt _ hW) (Nat.mod_lt _ hW) h1
  have hi' : i / W < H := Nat.div_lt_of_lt_mul (by rw [Nat.mul_comm]; exact hi)
  have hn' : n / W < H := Nat.div_lt_of_lt_mul (by rw [Nat.mul_comm]; exact hn)
  have h4 : i / W = n / W := by omega
  apply hne
  rw [← Nat.div_add_mod i W, ← Nat.div_add_mod n W, h4, h3]

theorem Inv.step {bpp W H : Nat} {s t : State} {v : List Nat} (h : Inv bpp W H s)
    (hx : s.x < W) (hk : Keep s t) (hv : v.length = bpp) :
    Inv bpp W H (advance (poke bpp t v)) := by
  obtain ⟨hh, hlen⟩ := h.open_row hx
  have hlt := h.log_lt hx
  have hline := h.line_some hh
  have hdiv : s.log.length / W = H - s.height - 1 := by
    rw [hlen, Nat.add_comm, Nat.add_mul_div_right _ _ (by omega : 0 < W), Nat.div_eq_of_lt hx,
      Nat.zero_add]
  have hmod : s.log.length % W = s.x := by
    rw [hlen, Nat.add_comm, Nat.add_mul_mod_self_right, Nat.mod_eq_of_lt hx]
  have hrow : rowOff bpp W H s.log.length = s.height * (W * bpp) := by
    unfold rowOff
    rw [hdiv]
    congr 1
    omega
  refine
    { c1 := by simpa [advance, poke, hk.color1] using h.c1
      c2 := by simpa [advance, poke, hk.color2] using h.c2
      mx := by simpa [advance, poke, hk.mix] using h.mx
      xle := by simp only [advance, poke, hk.x]; omega
      hle := by simpa [advance, poke, hk.height] using h.hle
      cnt := ?_
      line_none := ?_
      line_some := ?_
      prev_none := ?_
      prev_some := ?_
      ent := ?_ }
  · have := h.cnt
    simp only [advance, poke, hk.x, hk.height, hk.log, List.length_append, List.length_singleton]
    omega
  · intro h1
    simp only [advance, poke, hk.height] at h1
    omega
  · intro _
    simpa [advance, poke, hk.height, hk.line] using hline
  · intro h1
    simp only [advance, poke, hk.height] at h1
    simpa [advance, poke, hk.prevline] using h.prev_none h1
  · intro h1
    simp only [advance, poke, hk.height] at h1
    simpa [advance, poke, hk.prevline, hk.height] using h.prev_some h1
  · intro i e hie
    simp only [advance, poke, hk.log, hk.line, hk.x, hk.output, hline] at hie ⊢
    rcases Nat.lt_or_ge i s.log.length with hi | hi
    · rw [List.getElem?_append_left hi] at hie
      obtain ⟨e1, e2, e3, e4⟩ := h.ent i e hie
      refine ⟨e1, e2, e3, ?_⟩
      rw [← e4]
      apply peek_congr
      intro k hk'
      rw [storeBytes_apply]
      have hne : ¬ (s.height * (W * bpp) + s.x * bpp ≤ rowOff bpp W H i + i % W * bpp + k ∧
          rowOff bpp W H i + i % W * bpp + k < s.height * (W * bpp) + s.x * bpp + v.length) := by
        intro ⟨h1, h2⟩
        rw [hv] at h2
        have := @pix_disjoint bpp W H i s.log.length k
          (rowOff bpp W H i + i % W * bpp + k - (s.height * (W * bpp) + s.x * bpp))
          (by omega) hlt (by omega) hk' (by omega)
        apply this
        rw [hrow, hmod]
        omega
      simp only [hne, if_false]
    · rw [List.getElem?_append_right hi] at hie
      have hi2 : i = s.log.length := by
        rcases Nat.eq_or_lt_of_le hi with h1 | h1
        · exact h1.symm
        · have : i - s.log.length = (i - s.log.length - 1) + 1 := by omega
          rw [this] at hie
          simp at hie
      subst hi2
      simp only [Nat.sub_self, List.getElem?_cons_zero, Option.some.injEq] at hie
      subst hie
      simp only [hrow, hmod, List.length_map, hv, true_and]
      exact peek_storeBytes_self bpp _ _ v _ _ hv rfl
theorem Ext.erefl (s : State) : Ext s s := ⟨List.prefix_rfl, Nat.le_refl _, Nat.le_refl _, rfl, rfl⟩

theorem Ext.etrans {s t u : State} (h1 : Ext s t) (h2 : Ext t u) : Ext s u :=
  ⟨h1.log.trans h2.log, Nat.le_trans h1.pos h2.pos, Nat.le_trans h2.height h1.height,
    h2.opcode.trans h1.opcode, h2.lastopcode.trans h1.lastopcode⟩

theorem RowSame.rrefl (s : State) : RowSame s s := ⟨rfl, rfl, rfl⟩

theorem RowSame.rtrans {s t u : State} (h1 : RowSame s t) (h2 : RowSame t u) : RowSame s u :=
  ⟨h2.height.trans h1.height, h2.prevline.trans h1.prevline, h2.line.trans h1.line⟩

theorem poke_ext {bpp : Nat} {s t : State} (v : List Nat) (hk : Keep s t) :
    Ext s (advance (poke bpp t v)) ∧ RowSame s (advance (poke bpp t v)) ∧
      (advance (poke bpp t v)).log.length = s.log.length + 1 ∧
      (advance (poke bpp t v)).x = s.x + 1 ∧
      (advance (poke bpp t v)).insertmix = s.insertmix := by
  refine ⟨⟨?_, hk.pos, ?_, hk.opcode, hk.lastopcode⟩, ⟨hk.height, hk.prevline, hk.line⟩, ?_, ?_,
    hk.insertmix⟩
  · simp only [advance, poke, hk.log]
    exact List.prefix_append _ _
  · simp only [advance, poke, hk.height]
    exact Nat.le_refl _
  · simp [advance, poke, hk.log]
  · simp [advance, poke, hk.x]

theorem REPEAT_spec {bpp W H : Nat} {st : State → State} (hst : Stmt bpp st) :
    ∀ (m : Nat) (s : State), Inv bpp W H s →
      Inv bpp W H (REPEAT W st m s) ∧ Ext s (REPEAT W st m s) ∧ RowSame s (REPEAT W st m s) ∧
      (REPEAT W st m s).insertmix = s.insertmix ∧
      (0 < m → 0 < s.count → s.x < W → s.log.length < (REPEAT W st m s).log.length) ∧
      (W - s.x ≤ m → (REPEAT W st m s).count = 0 ∨ W ≤ (REPEAT W st m s).x) := by
  intro m
  induction m with
  | zero =>
    intro s hs
    refine ⟨hs, Ext.erefl s, RowSame.rrefl s, rfl, fun h => absurd h (Nat.lt_irrefl 0), ?_⟩
    intro h
    right
    simp only [REPEAT]
    omega
  | succ m ih =>
    intro s hs
    by_cases hc : 0 < s.count ∧ s.x < W
    · obtain ⟨t, v, e, hv, hk⟩ := hst s hs.toLens
      have hstep := Inv.step hs hc.2 hk hv
      obtain ⟨x1, x2, x3, x4, x5⟩ := @poke_ext bpp s t v hk
      obtain ⟨i1, i2, i3, i4, _, i6⟩ := ih (advance (poke bpp t v)) hstep
      have hr : REPEAT W st (m + 1) s = REPEAT W st m (advance (poke bpp t v)) := by
        simp only [REPEAT, hc, and_self, if_true, e]
      rw [hr]
      refine ⟨i1, x1.etrans i2, x2.rtrans i3, i4.trans x5, ?_, ?_⟩
      · intro _ _ _
        have := i2.log.length_le
        omega
      · intro h
        apply i6
        rw [x4]
        omega
    · have hr : REPEAT W st (m + 1) s = s := by
        simp only [REPEAT, hc, if_false]
      rw [hr]
      refine ⟨hs, Ext.erefl s, RowSame.rrefl s, rfl, ?_, ?_⟩
      · intro _ h1 h2
        exact absurd ⟨h1, h2⟩ hc
      · intro _
        rcases Nat.eq_zero_or_pos s.count with h1 | h1
        · exact Or.inl h1
        · right
          rcases Nat.lt_or_ge s.x W with h2 | h2
          · exact absurd ⟨h1, h2⟩ hc
          · exact h2
theorem openRow_none {bpp W : Nat} {s : State} (h : openRow bpp W s = none) :
    W ≤ s.x ∧ s.height = 0 := by
  unfold openRow at h
  split at h
  · split at h
    · exact ⟨by assumption, by omega⟩
    · cases h
  · cases h

theorem openRow_spec {bpp W H : Nat} {s s1 : State} (hs : Inv bpp W H s) (hW : 0 < W)
    (h : openRow bpp W s = some s1) :
    Inv bpp W H s1 ∧ Ext s s1 ∧ s1.x < W ∧ s1.log = s.log ∧ s1.count = s.count ∧
      room W s1 = room W s ∧ s1.insertmix = s.insertmix ∧ s1.output = s.output ∧
      s1.pos = s.pos := by
  unfold openRow at h
  split at h
  · rename_i hx
    split at h
    · cases h
    · rename_i hh
      simp only [Option.some.injEq] at h
      subst h
      have hx' : s.x = W := Nat.le_antisymm hs.xle hx
      have hc := hs.cnt
      have hH := hs.hle
      refine ⟨?_, ⟨List.prefix_rfl, Nat.le_refl _, Nat.sub_le _ _, rfl, rfl⟩, hW, rfl, rfl, ?_, rfl,
        rfl, rfl⟩
      · refine
          { c1 := hs.c1, c2 := hs.c2, mx := hs.mx
            xle := Nat.zero_le _
            hle := Nat.le_trans (Nat.sub_le _ _) hH
            cnt := ?_
            line_none := ?_
            line_some := ?_
            prev_none := ?_
            prev_some := ?_
            ent := hs.ent }
        · simp only [hx', Nat.sub_self, Nat.add_zero, Nat.sub_zero] at hc ⊢
          have : H - (s.height - 1) = (H - s.height) + 1 := by omega
          rw [this, Nat.add_mul, Nat.one_mul, hc]
        · intro h1
          simp only at h1
          omega
        · intro _
          rfl
        · intro h1
          simp only at h1 ⊢
          exact (hs.line_none (by omega)).1
        · intro h1
          simp only at h1 ⊢
          rw [hs.line_some (by omega)]
          congr 2
          omega
      · simp only [room, hx', Nat.sub_self, Nat.add_zero, Nat.sub_zero]
        have : s.height = (s.height - 1) + 1 := by omega
        conv_rhs => rw [this, Nat.add_mul, Nat.one_mul]
  · rename_i hx
    simp only [Option.some.injEq] at h
    subst h
    exact ⟨hs, Ext.erefl _, by omega, rfl, rfl, rfl, rfl, rfl, rfl⟩

theorem insertMix_spec {bpp W H : Nat} {s : State} (hs : Inv bpp W H s) (hx : s.x < W) :
    Inv bpp W H (insertMix bpp s) ∧ Ext s (insertMix bpp s) ∧ RowSame s (insertMix bpp s) ∧
      (insertMix bpp s).insertmix = false ∧
      (s.insertmix = true → (insertMix bpp s).log.length = s.log.length + 1) ∧
      (s.insertmix = false → insertMix bpp s = s) := by
  unfold insertMix
  split
  · rename_i hi
    obtain ⟨t, v, e, hv, hk⟩ := stmt_stMix bpp s.prevline s hs.toLens
    have hstep := Inv.step hs hx hk hv
    obtain ⟨x1, x2, x3, _, _⟩ := @poke_ext bpp s t v hk
    rw [e]
    refine ⟨?_, ⟨x1.log, x1.pos, x1.height, x1.opcode, x1.lastopcode⟩,
      ⟨x2.height, x2.prevline, x2.line⟩, rfl, fun _ => x3, fun h => ?_⟩
    · exact
        { c1 := hstep.c1, c2 := hstep.c2, mx := hstep.mx, xle := hstep.xle, hle := hstep.hle
          cnt := hstep.cnt, line_none := hstep.line_none, line_some := hstep.line_some
          prev_none := hstep.prev_none, prev_some := hstep.prev_some, ent := hstep.ent }
    · rw [hi] at h
      cases h
  · rename_i hi
    exact ⟨hs, Ext.erefl _, RowSame.rrefl _, by simpa using hi, fun h => absurd h hi, fun _ => rfl⟩

theorem bodySwitch_none {bpp W : Nat} {input : Nat → Nat} {s : State} :
    bodySwitch bpp W input s = none ↔ ¬ hasBody s.opcode := by
  unfold bodySwitch hasBody
  constructor
  · intro h
    split_ifs at h
    simp only [not_or]
    exact ⟨by assumption, by assumption, by assumption, by assumption, by assumption,
      by assumption, by assumption, by assumption⟩
  · intro h
    simp only [not_or] at h
    obtain ⟨h0, h1, h2, h3, h4, h8, hd, he⟩ := h
    simp only [h0, h1, h2, h3, h4, h8, hd, he, if_false]

theorem bodySwitch_spec {bpp W H : Nat} {input : Nat → Nat} {s s2 : State}
    (hs : Inv bpp W H s) (hx : s.x < W) (hc : 0 < s.count)
    (h : bodySwitch bpp W input s = some s2) :
    Inv bpp W H s2 ∧ Ext s s2 ∧ RowSame s s2 ∧ s.log.length < s2.log.length ∧
      (s2.count = 0 ∨ W ≤ s2.x) ∧ (s.insertmix = false → s2.insertmix = false) := by
  have key : ∀ st, Stmt bpp st → s2 = REPEAT W st (W - s.x) s →
      Inv bpp W H s2 ∧ Ext s s2 ∧ RowSame s s2 ∧ s.log.length < s2.log.length ∧
      (s2.count = 0 ∨ W ≤ s2.x) ∧ (s.insertmix = false → s2.insertmix = false) := by
    intro st hst e
    obtain ⟨r1, r2, r3, r4, r5, r6⟩ := REPEAT_spec (W := W) (H := H) hst (W - s.x) s hs
    rw [e]
    exact ⟨r1, r2, r3, r5 (by omega) hc hx, r6 (Nat.le_refl _), fun h => r4.trans h⟩
  unfold bodySwitch at h
  split_ifs at h
  · simp only [Option.some.injEq] at h
    obtain ⟨m1, m2, m3, m4, m5, m6⟩ := insertMix_spec hs hx
    obtain ⟨r1, r2, r3, r4, r5, r6⟩ :=
      REPEAT_spec (W := W) (H := H) (stmt_stFill bpp (insertMix bpp s).prevline)
        (W - (insertMix bpp s).x) (insertMix bpp s) m1
    rw [← h]
    refine ⟨r1, m2.etrans r2, m3.rtrans r3, ?_, r6 (Nat.le_refl _), fun _ => r4.trans m4⟩
    cases hi : s.insertmix
    · have e := m6 hi
      rw [e] at r5 ⊢
      exact r5 (by omega) hc hx
    · have := m5 hi
      have := r2.log.length_le
      omega
  · exact key _ (stmt_stMix bpp _) (Option.some.inj h).symm
  · exact key _ (stmt_stFillOrMix bpp input _) (Option.some.inj h).symm
  · exact key _ (stmt_stColor bpp) (Option.some.inj h).symm
  · exact key _ (stmt_stCopy bpp input) (Option.some.inj h).symm
  · exact key _ (stmt_stBicolor bpp) (Option.some.inj h).symm
  · exact key _ (stmt_stWhite bpp) (Option.some.inj h).symm
  · exact key _ (stmt_stBlack bpp) (Option.some.inj h).symm
theorem Inv.room_eq {bpp W H : Nat} {s : State} (h : Inv bpp W H s) :
    s.log.length + room W s = H * W := by
  have hc := h.cnt
  have hh := h.hle
  unfold room
  have : H * W = (H - s.height) * W + s.height * W := by
    rw [← Nat.add_mul]
    congr 1
    omega
  omega

theorem body_spec {bpp W H : Nat} (input : Nat → Nat) (hW : 0 < W) :
    ∀ (n : Nat) (s : State), Inv bpp W H s →
      Inv bpp W H (body bpp W input n s).2 ∧ Ext s (body bpp W input n s).2 ∧
      (room W s < n → (body bpp W input n s).1 = true → (body bpp W input n s).2.count = 0) ∧
      ((body bpp W input n s).1 = false → 0 < (body bpp W input n s).2.count ∧
        ((W ≤ (body bpp W input n s).2.x ∧ (body bpp W input n s).2.height = 0) ∨
          ¬ hasBody (body bpp W input n s).2.opcode)) := by
  intro n
  induction n with
  | zero =>
    intro s hs
    refine ⟨hs, Ext.erefl s, fun h => absurd h (Nat.not_lt_zero _), fun h => ?_⟩
    simp [body] at h
  | succ n ih =>
    intro s hs
    by_cases hc : 0 < s.count
    · cases ho : openRow bpp W s with
      | none =>
        have e : body bpp W input (n + 1) s = (false, s) := by
          simp only [body, hc, if_true, ho]
        rw [e]
        exact ⟨hs, Ext.erefl s, fun _ h => Bool.noConfusion h, fun _ => ⟨hc, Or.inl (openRow_none ho)⟩⟩
      | some s1 =>
        obtain ⟨o1, o2, o3, o4, o5, o6, _⟩ := openRow_spec hs hW ho
        cases hb : bodySwitch bpp W input s1 with
        | none =>
          have e : body bpp W input (n + 1) s = (false, s1) := by
            simp only [body, hc, if_true, ho, hb]
          rw [e]
          exact ⟨o1, o2, fun _ h => Bool.noConfusion h,
            fun _ => ⟨(by rw [o5]; exact hc), Or.inr (bodySwitch_none.mp hb)⟩⟩
        | some s2 =>
          have e : body bpp W input (n + 1) s = body bpp W input n s2 := by
            simp only [body, hc, if_true, ho, hb]
          rw [e]
          obtain ⟨b1, b2, _, b4, _⟩ := bodySwitch_spec o1 o3 (by rw [o5]; exact hc) hb
          obtain ⟨i1, i2, i3, i4⟩ := ih s2 b1
          refine ⟨i1, (o2.etrans b2).etrans i2, fun hr => ?_, i4⟩
          apply i3
          have r1 := hs.room_eq
          have r2 := b1.room_eq
          rw [o4] at b4
          omega
    · have e : body bpp W input (n + 1) s = (true, s) := by
        simp only [body, hc, if_false]
      rw [e]
      exact ⟨hs, Ext.erefl s, fun _ _ => Nat.eq_zero_of_not_pos hc, fun h => Bool.noConfusion h⟩

theorem opcodeForm_same (input : Nat → Nat) (s : State) :
    Same s (opcodeForm input s).1 ∧ s.pos < (opcodeForm input s).1.pos ∧
      (opcodeForm input s).1.color1 = s.color1 ∧ (opcodeForm input s).1.color2 = s.color2 ∧
      (opcodeForm input s).1.mix = s.mix := by
  unfold opcodeForm
  simp only []
  split_ifs <;>
    exact ⟨⟨rfl, rfl, rfl, rfl, rfl, rfl, by simp only [CVAL_snd]; omega⟩,
      by simp only [CVAL_snd]; omega, rfl, rfl, rfl⟩

theorem countAdjust_same (input : Nat → Nat) (s : State) (offset : Nat) :
    Same s (countAdjust input s offset) ∧
      (countAdjust input s offset).color1 = s.color1 ∧
      (countAdjust input s offset).color2 = s.color2 ∧
      (countAdjust input s offset).mix = s.mix := by
  unfold countAdjust
  simp only []
  split_ifs <;>
    exact ⟨⟨rfl, rfl, rfl, rfl, rfl, rfl, by first | exact Nat.le_refl _ | exact Nat.le_succ _⟩,
      rfl, rfl, rfl⟩

theorem preliminary_same (bpp W : Nat) (input : Nat → Nat) (s : State) (hl : Lens bpp s) :
    Same s (preliminary bpp W input s) ∧ Lens bpp (preliminary bpp W input s) := by
  unfold preliminary
  simp only []
  split_ifs
  · exact ⟨⟨rfl, rfl, rfl, rfl, rfl, rfl, Nat.le_refl _⟩, ⟨hl.c1, hl.c2, hl.mx⟩⟩
  · exact ⟨Same.srefl s, hl⟩
  · simp only [CVALn_snd, CVALn_fst]
    exact ⟨⟨rfl, rfl, rfl, rfl, rfl, rfl, by simp only []; omega⟩, ⟨by simp, by simp, hl.mx⟩⟩
  · simp only [CVALn_snd, CVALn_fst]
    exact ⟨⟨rfl, rfl, rfl, rfl, rfl, rfl, by simp only []; omega⟩, ⟨hl.c1, by simp, hl.mx⟩⟩
  · simp only [CVALn_snd, CVALn_fst]
    exact ⟨⟨rfl, rfl, rfl, rfl, rfl, rfl, by simp only []; omega⟩, ⟨hl.c1, hl.c2, by simp⟩⟩
  · exact ⟨⟨rfl, rfl, rfl, rfl, rfl, rfl, Nat.le_refl _⟩, ⟨hl.c1, hl.c2, hl.mx⟩⟩
  · exact ⟨⟨rfl, rfl, rfl, rfl, rfl, rfl, Nat.le_refl _⟩, ⟨hl.c1, hl.c2, hl.mx⟩⟩
  · exact ⟨Same.srefl s, hl⟩

theorem Inv.of_same {bpp W H : Nat} {s t : State} (hs : Inv bpp W H s) (h : Same s t)
    (hl : Lens bpp t) : Inv bpp W H t :=
  { c1 := hl.c1, c2 := hl.c2, mx := hl.mx
    xle := by rw [h.x]; exact hs.xle
    hle := by rw [h.height]; exact hs.hle
    cnt := by rw [h.log, h.x, h.height]; exact hs.cnt
    line_none := by rw [h.height, h.line, h.prevline]; exact hs.line_none
    line_some := by rw [h.height, h.line]; exact hs.line_some
    prev_none := by rw [h.height, h.prevline]; exact hs.prev_none
    prev_some := by rw [h.height, h.prevline]; exact hs.prev_some
    ent := by rw [h.log, h.output]; exact hs.ent }

theorem header_spec {bpp W H : Nat} (input : Nat → Nat) {s : State} (hs : Inv bpp W H s) :
    Inv bpp W H (header bpp W input s) ∧ Same s (header bpp W input s) ∧
      s.pos < (header bpp W input s).pos := by
  have h0 : Same s { s with fom_mask := 0 } := ⟨rfl, rfl, rfl, rfl, rfl, rfl, Nat.le_refl _⟩
  obtain ⟨f1, f2, f3, f4, f5⟩ := opcodeForm_same input { s with fom_mask := 0 }
  obtain ⟨c1, c2, c3, c4⟩ :=
    countAdjust_same input (opcodeForm input { s with fom_mask := 0 }).1
      (opcodeForm input { s with fom_mask := 0 }).2
  have hl : Lens bpp (countAdjust input (opcodeForm input { s with fom_mask := 0 }).1
      (opcodeForm input { s with fom_mask := 0 }).2) :=
    ⟨by rw [c2, f3]; exact hs.c1, by rw [c3, f4]; exact hs.c2, by rw [c4, f5]; exact hs.mx⟩
  obtain ⟨p1, p2⟩ := preliminary_same bpp W input _ hl
  have hsame : Same s (header bpp W input s) := by
    have := ((h0.strans f1).strans c1).strans p1
    exact ⟨this.output, this.log, this.height, this.prevline, this.line, this.x, this.pos⟩
  refine ⟨hs.of_same hsame ⟨p2.c1, p2.c2, p2.mx⟩, hsame, ?_⟩
  have := c1.pos
  have := p1.pos
  have e : (header bpp W input s).pos = (preliminary bpp W input
      (countAdjust input (opcodeForm input { s with fom_mask := 0 }).1
        (opcodeForm input { s with fom_mask := 0 }).2)).pos := rfl
  rw [e]
  simp only at f2
  omega
theorem run_spec {bpp W H : Nat} (input : Nat → Nat) (hW : 0 < W) {s : State}
    (hs : Inv bpp W H s) :
    Inv bpp W H (run bpp W input s).2 ∧ s.log <+: (run bpp W input s).2.log ∧
      s.pos < (run bpp W input s).2.pos ∧
      ((run bpp W input s).1 = true → (run bpp W input s).2.count = 0) ∧
      ((run bpp W input s).1 = false → 0 < (run bpp W input s).2.count ∧
        ((W ≤ (run bpp W input s).2.x ∧ (run bpp W input s).2.height = 0) ∨
          ¬ hasBody (run bpp W input s).2.opcode)) := by
  obtain ⟨h1, h2, h3⟩ := header_spec (W := W) input hs
  obtain ⟨b1, b2, b3, b4⟩ :=
    body_spec input hW (((header bpp W input s).height + 1) * (W + 1))
      (header bpp W input s) h1
  refine ⟨b1, ?_, Nat.lt_of_lt_of_le h3 b2.pos, ?_, b4⟩
  · have := b2.log
    rw [h2.log] at this
    exact this
  · apply b3
    unfold room
    have : (header bpp W input s).height * W + (W - (header bpp W input s).x) ≤
        (header bpp W input s).height * W + W := by omega
    calc (header bpp W input s).height * W + (W - (header bpp W input s).x)
        ≤ (header bpp W input s).height * W + W := this
      _ < ((header bpp W input s).height + 1) * (W + 1) := by ring_nf; omega

theorem runs_spec {bpp W H : Nat} (input : Nat → Nat) (size : Nat) (hW : 0 < W) :
    ∀ (n : Nat) (s : State), Inv bpp W H s →
      Inv bpp W H (runs bpp W input size n s).st ∧ s.log <+: (runs bpp W input size n s).st.log ∧
      s.pos ≤ (runs bpp W input size n s).st.pos ∧
      (size - s.pos ≤ n → (runs bpp W input size n s).ok = true →
        size ≤ (runs bpp W input size n s).st.pos) ∧
      (s.count = 0 → (runs bpp W input size n s).ok = true →
        (runs bpp W input size n s).st.count = 0) ∧
      ((runs bpp W input size n s).ok = false → 0 < (runs bpp W input size n s).st.count ∧
        ((W ≤ (runs bpp W input size n s).st.x ∧ (runs bpp W input size n s).st.height = 0) ∨
          ¬ hasBody (runs bpp W input size n s).st.opcode)) := by
  intro n
  induction n with
  | zero =>
    intro s hs
    refine ⟨hs, List.prefix_rfl, Nat.le_refl _, fun h _ => ?_, fun h _ => h,
      fun h => Bool.noConfusion h⟩
    simp only [runs]
    omega
  | succ n ih =>
    intro s hs
    by_cases hp : s.pos < size
    · obtain ⟨r1, r2, r3, r4, r5⟩ := run_spec input hW hs
      cases hr : run bpp W input s with
      | mk b s1 =>
        rw [hr] at r1 r2 r3 r4 r5
        cases b with
        | false =>
          have e : runs bpp W input size (n + 1) s = { ok := false, st := s1 } := by
            simp only [runs, hp, if_true, hr]
          rw [e]
          exact ⟨r1, r2, Nat.le_of_lt r3, fun _ h => Bool.noConfusion h,
            fun _ h => Bool.noConfusion h, fun _ => r5 rfl⟩
        | true =>
          have e : runs bpp W input size (n + 1) s = runs bpp W input size n s1 := by
            simp only [runs, hp, if_true, hr]
          rw [e]
          obtain ⟨i1, i2, i3, i4, i5, i6⟩ := ih s1 r1
          refine ⟨i1, r2.trans i2, Nat.le_trans (Nat.le_of_lt r3) i3, fun h => i4 ?_,
            fun _ => i5 (r4 rfl), i6⟩
          simp only at r3
          omega
    · have e : runs bpp W input size (n + 1) s = { ok := true, st := s } := by
        simp only [runs, hp, if_false]
      rw [e]
      exact ⟨hs, List.prefix_rfl, Nat.le_refl _, fun _ _ => Nat.le_of_not_lt hp, fun h _ => h,
        fun h => Bool.noConfusion h⟩

theorem init_inv (bpp : Nat) (out : Nat → Nat) (W H : Nat) : Inv bpp W H (init bpp out W H) :=
  { c1 := by simp [init, zeroPx]
    c2 := by simp [init, zeroPx]
    mx := by simp [init, whitePx]
    xle := Nat.le_refl _
    hle := Nat.le_refl _
    cnt := by simp [init]
    line_none := fun _ => ⟨rfl, rfl⟩
    line_some := fun h => absurd h (Nat.lt_irrefl _)
    prev_none := fun _ => rfl
    prev_some := fun h => by simp only [init] at h; omega
    ent := fun i e h => by simp [init] at h }

theorem decode_spec (bpp : Nat) {W : Nat} (H : Nat) (out input : Nat → Nat) (size : Nat) (hW : 0 < W) :
    Inv bpp W H (rle_decode bpp out W H input size).st ∧
      ((rle_decode bpp out W H input size).ok = true →
        size ≤ (rle_decode bpp out W H input size).st.pos ∧
        (rle_decode bpp out W H input size).st.count = 0) ∧
      ((rle_decode bpp out W H input size).ok = false →
        0 < (rle_decode bpp out W H input size).st.count ∧
        ((W ≤ (rle_decode bpp out W H input size).st.x ∧
            (rle_decode bpp out W H input size).st.height = 0) ∨
          ¬ hasBody (rle_decode bpp out W H input size).st.opcode)) := by
  obtain ⟨h1, _, _, h4, h5, h6⟩ :=
    @runs_spec bpp W H input size hW size (init bpp out W H) (init_inv bpp out W H)
  exact ⟨h1, fun h => ⟨h4 (Nat.sub_le _ _) h, h5 rfl h⟩, h6⟩

/-! ### Properties of memory and trace kept by every store -/

theorem REPEAT_stable {bpp W H : Nat} {st : State → State} (hst : Stmt bpp st)
    {Q : (Nat → Nat) → List Write → Prop} (hQ : StoreStable bpp Q) :
    ∀ (m : Nat) (s : State), Inv bpp W H s → Q s.output s.log →
      Q (REPEAT W st m s).output (REPEAT W st m s).log := by
  intro m
  induction m with
  | zero => intro s _ h; exact h
  | succ m ih =>
    intro s hs hq
    by_cases hc : 0 < s.count ∧ s.x < W
    · obtain ⟨t, v, e, hv, hk⟩ := hst s hs.toLens
      have hr : REPEAT W st (m + 1) s = REPEAT W st m (advance (poke bpp t v)) := by
        simp only [REPEAT, hc, and_self, if_true, e]
      rw [hr]
      apply ih _ (Inv.step hs hc.2 hk hv)
      have := hQ t.output t.log t.line t.x v hv (by rw [hk.output, hk.log]; exact hq)
      exact this
    · have hr : REPEAT W st (m + 1) s = s := by
        simp only [REPEAT, hc, if_false]
      rw [hr]
      exact hq
theorem insertMix_stable {bpp W H : Nat} {Q : (Nat → Nat) → List Write → Prop}
    (hQ : StoreStable bpp Q) {s : State} (hs : Inv bpp W H s) (hq : Q s.output s.log) :
    Q (insertMix bpp s).output (insertMix bpp s).log := by
  unfold insertMix
  split
  · obtain ⟨t, v, e, hv, hk⟩ := stmt_stMix bpp s.prevline s hs.toLens
    rw [e]
    exact hQ t.output t.log t.line t.x v hv (by rw [hk.output, hk.log]; exact hq)
  · exact hq

theorem bodySwitch_stable {bpp W H : Nat} {input : Nat → Nat}
    {Q : (Nat → Nat) → List Write → Prop} (hQ : StoreStable bpp Q) {s s2 : State}
    (hs : Inv bpp W H s) (hx : s.x < W) (hq : Q s.output s.log)
    (h : bodySwitch bpp W input s = some s2) : Q s2.output s2.log := by
  unfold bodySwitch at h
  split_ifs at h
  · rw [← Option.some.inj h]
    exact REPEAT_stable (stmt_stFill bpp _) hQ _ _ (insertMix_spec hs hx).1
      (insertMix_stable hQ hs hq)
  · rw [← Option.some.inj h]; exact REPEAT_stable (stmt_stMix bpp _) hQ _ _ hs hq
  · rw [← Option.some.inj h]; exact REPEAT_stable (stmt_stFillOrMix bpp input _) hQ _ _ hs hq
  · rw [← Option.some.inj h]; exact REPEAT_stable (stmt_stColor bpp) hQ _ _ hs hq
  · rw [← Option.some.inj h]; exact REPEAT_stable (stmt_stCopy bpp input) hQ _ _ hs hq
  · rw [← Option.some.inj h]; exact REPEAT_stable (stmt_stBicolor bpp) hQ _ _ hs hq
  · rw [← Option.some.inj h]; exact REPEAT_stable (stmt_stWhite bpp) hQ _ _ hs hq
  · rw [← Option.some.inj h]; exact REPEAT_stable (stmt_stBlack bpp) hQ _ _ hs hq

theorem body_stable {bpp W H : Nat} {input : Nat → Nat} (hW : 0 < W)
    {Q : (Nat → Nat) → List Write → Prop} (hQ : StoreStable bpp Q) :
    ∀ (n : Nat) (s : State), Inv bpp W H s → Q s.output s.log →
      Q (body bpp W input n s).2.output (body bpp W input n s).2.log := by
  intro n
  induction n with
  | zero => intro s _ h; exact h
  | succ n ih =>
    intro s hs hq
    by_cases hc : 0 < s.count
    · cases ho : openRow bpp W s with
      | none =>
        have e : body bpp W input (n + 1) s = (false, s) := by
          simp only [body, hc, if_true, ho]
        rw [e]; exact hq
      | some s1 =>
        obtain ⟨o1, _, o3, o4, o5, _, _, o8, _⟩ := openRow_spec hs hW ho
        have hq1 : Q s1.output s1.log := by rw [o8, o4]; exact hq
        cases hb : bodySwitch bpp W input s1 with
        | none =>
          have e : body bpp W input (n + 1) s = (false, s1) := by
            simp only [body, hc, if_true, ho, hb]
          rw [e]; exact hq1
        | some s2 =>
          have e : body bpp W input (n + 1) s = body bpp W input n s2 := by
            simp only [body, hc, if_true, ho, hb]
          rw [e]
          exact ih s2 (bodySwitch_spec o1 o3 (by rw [o5]; exact hc) hb).1
            (bodySwitch_stable hQ o1 o3 hq1 hb)
    · have e : body bpp W input (n + 1) s = (true, s) := by
        simp only [body, hc, if_false]
      rw [e]; exact hq

theorem run_stable {bpp W H : Nat} (input : Nat → Nat) (hW : 0 < W)
    {Q : (Nat → Nat) → List Write → Prop} (hQ : StoreStable bpp Q) {s : State}
    (hs : Inv bpp W H s) (hq : Q s.output s.log) :
    Q (run bpp W input s).2.output (run bpp W input s).2.log := by
  obtain ⟨h1, h2, _⟩ := header_spec (W := W) input hs
  exact body_stable hW hQ _ _ h1 (by rw [h2.output, h2.log]; exact hq)

theorem runs_stable {bpp W H : Nat} (input : Nat → Nat) (size : Nat) (hW : 0 < W)
    {Q : (Nat → Nat) → List Write → Prop} (hQ : StoreStable bpp Q) :
    ∀ (n : Nat) (s : State), Inv bpp W H s → Q s.output s.log →
      Q (runs bpp W input size n s).st.output (runs bpp W input size n s).st.log := by
  intro n
  induction n with
  | zero => intro s _ h; exact h
  | succ n ih =>
    intro s hs hq
    by_cases hp : s.pos < size
    · have r1 := (run_spec input hW hs).1
      have r2 := run_stable input hW hQ hs hq
      cases hr : run bpp W input s with
      | mk b s1 =>
        rw [hr] at r1 r2
        cases b with
        | false =>
          have e : runs bpp W input size (n + 1) s = { ok := false, st := s1 } := by
            simp only [runs, hp, if_true, hr]
          rw [e]; exact r2
        | true =>
          have e : runs bpp W input size (n + 1) s = runs bpp W input size n s1 := by
            simp only [runs, hp, if_true, hr]
          rw [e]; exact ih s1 r1 r2
    · have e : runs bpp W input size (n + 1) s = { ok := true, st := s } := by
        simp only [runs, hp, if_false]
      rw [e]; exact hq

theorem decode_stable (bpp : Nat) {W : Nat} (H : Nat) (out input : Nat → Nat) (size : Nat) (hW : 0 < W)
    {Q : (Nat → Nat) → List Write → Prop} (hQ : StoreStable bpp Q) (h0 : Q out []) :
    Q (rle_decode bpp out W H input size).st.output (rle_decode bpp out W H input size).st.log :=
  runs_stable (H := H) input size hW hQ size _ (init_inv bpp out W H) h0

theorem storeBytes_mod (v : List Nat) (out : Nat → Nat) (off : Nat) :
    storeBytes out off (v.map (fun b => b % 256)) = storeBytes out off v := by
  induction v generalizing out off with
  | nil => rfl
  | cons b bs ih => simp only [List.map_cons, storeBytes, Nat.mod_mod, ih]

theorem replay_append (bpp : Nat) (l1 l2 : List Write) (out : Nat → Nat) :
    replay bpp out (l1 ++ l2) = replay bpp (replay bpp out l1) l2 := by
  induction l1 generalizing out with
  | nil => rfl
  | cons e es ih => exact ih _

/-- The output memory is the memory before the call with the stores of the trace done
in order. -/
theorem replay_stable (bpp : Nat) (out0 : Nat → Nat) :
    StoreStable bpp (fun out log => out = replay bpp out0 log) := by
  intro out log line x v _ hq
  show _ = replay bpp out0 _
  rw [replay_append, ← hq]
  cases line with
  | none => rfl
  | some l => simp only [replay, storeBytes_mod]

theorem decode_replay (bpp : Nat) {W : Nat} (H : Nat) (out input : Nat → Nat) (size : Nat) (hW : 0 < W) :
    (rle_decode bpp out W H input size).st.output =
      replay bpp out (rle_decode bpp out W H input size).st.log :=
  decode_stable bpp H out input size hW (replay_stable bpp out) rfl
/-! ## Bounds of the stores and results of the decoder (C1 to C5) -/

theorem header_A0_BF (bpp W : Nat) (input : Nat → Nat) (s : State) (c : Nat)
    (hc : input s.pos % 256 = c) (h1 : 0xA0 ≤ c) (h2 : c ≤ 0xBF) :
    (header bpp W input s).opcode = 5 ∧ 0 < (header bpp W input s).count := by
  have e4 : c >>> 4 = c / 16 := by rw [Nat.shiftRight_eq_div_pow]
  have n1 : ¬ (c >>> 4 = 0xc ∨ c >>> 4 = 0xd ∨ c >>> 4 = 0xe) := by rw [e4]; omega
  have n2 : ¬ (c >>> 4 = 0xf) := by rw [e4]; omega
  have e5 : (c >>> 4) >>> 1 = 5 := by rw [e4, Nat.shiftRight_eq_div_pow]; omega
  by_cases h0 : c &&& 0x1f = 0
  · simp [header, opcodeForm, countAdjust, preliminary, CVAL, hc, n1, n2, e5, h0]
  · simp [header, opcodeForm, countAdjust, preliminary, CVAL, hc, n1, n2, e5, h0]
    exact Nat.pos_of_ne_zero h0

theorem header_F5 (bpp W : Nat) (input : Nat → Nat) (s : State)
    (hc : input s.pos % 256 = 0xF5) :
    (header bpp W input s).opcode = 5 ∧
      (header bpp W input s).count =
        input (s.pos + 1) % 256 ||| (input (s.pos + 2) % 256) <<< 8 := by
  have a1 : (245 &&& 15 : Nat) = 5 := by decide
  simp [header, opcodeForm, countAdjust, preliminary, CVAL, hc, a1]

theorem header_FB_FC_FF (bpp W : Nat) (input : Nat → Nat) (s : State)
    (hc : input s.pos % 256 = 0xFB ∨ input s.pos % 256 = 0xFC ∨ input s.pos % 256 = 0xFF) :
    (header bpp W input s).opcode = input s.pos % 256 &&& 0xf ∧
      (header bpp W input s).count = 1 := by
  have a1 : (251 &&& 15 : Nat) = 11 := by decide
  have a2 : (252 &&& 15 : Nat) = 12 := by decide
  have a3 : (255 &&& 15 : Nat) = 15 := by decide
  rcases hc with hc | hc | hc <;>
    simp [header, opcodeForm, countAdjust, preliminary, CVAL, hc, a1, a2, a3]

theorem body_no_rule (bpp W : Nat) (input : Nat → Nat) (n : Nat) (s : State)
    (hk : ¬ hasBody s.opcode) (hc : 0 < s.count) :
    (body bpp W input (n + 1) s).1 = false := by
  cases ho : openRow bpp W s with
  | none => simp only [body, hc, if_true, ho]
  | some s1 =>
    have e : s1.opcode = s.opcode := by
      unfold openRow at ho
      split_ifs at ho <;> cases ho <;> rfl
    have hb : bodySwitch bpp W input s1 = none := bodySwitch_none.mpr (by rw [e]; exact hk)
    simp only [body, hc, if_true, ho, hb]
theorem runs_extend {bpp W H : Nat} (input : Nat → Nat) (hW : 0 < W) (size size' : Nat)
    (hle : size ≤ size') :
    ∀ (n n' : Nat) (s : State), Inv bpp W H s → size - s.pos ≤ n → size' - s.pos ≤ n' →
      ((runs bpp W input size n s).ok = true → size' ≤ (runs bpp W input size n s).st.pos) →
      runs bpp W input size' n' s = runs bpp W input size n s := by
  intro n
  induction n with
  | zero =>
    intro n' s _ h1 _ h3
    have e : runs bpp W input size 0 s = { ok := true, st := s } := rfl
    rw [e] at h3 ⊢
    have hp : ¬ s.pos < size' := Nat.not_lt.mpr (h3 rfl)
    cases n' with
    | zero => rfl
    | succ k => simp only [runs, hp, if_false]
  | succ n ih =>
    intro n' s hs h1 h2 h3
    by_cases hp : s.pos < size
    · have hp' : s.pos < size' := Nat.lt_of_lt_of_le hp hle
      cases n' with
      | zero => omega
      | succ k =>
        obtain ⟨r1, _, r3, _⟩ := run_spec input hW hs
        cases hr : run bpp W input s with
        | mk b s1 =>
          rw [hr] at r1 r3
          simp only at r3
          cases b with
          | false => simp only [runs, hp, hp', if_true, hr]
          | true =>
            have e : runs bpp W input size (n + 1) s = runs bpp W input size n s1 := by
              simp only [runs, hp, if_true, hr]
            have e' : runs bpp W input size' (k + 1) s = runs bpp W input size' k s1 := by
              simp only [runs, hp', if_true, hr]
            rw [e] at h3 ⊢
            rw [e']
            exact ih k s1 r1 (by omega) (by omega) h3
    · have e : runs bpp W input size (n + 1) s = { ok := true, st := s } := by
        simp only [runs, hp, if_false]
      rw [e] at h3 ⊢
      have hp' : ¬ s.pos < size' := Nat.not_lt.mpr (h3 rfl)
      cases n' with
      | zero => rfl
      | succ k => simp only [runs, hp', if_false]

/-- C3 (amended): the decoder compares the cursor with `size` only where a run
starts.  For every width > 0, height and input, its result on the first `size`
bytes is its result on any longer prefix `size'` of the same memory that does not
extend past the final cursor: count, operand, literal and mask bytes missing from
a truncated input are read at positions `≥ size` and used as if they belonged to
the input.  A true result has the cursor at or beyond `size`; a false result only
comes from a lack of rows or from a kind without body rule. -/
theorem C3_truncation_not_detected (bpp W H : Nat) (out input : Nat → Nat) (size : Nat)
    (hW : 0 < W) :
    ((rle_decode bpp out W H input size).ok = true →
      size ≤ (rle_decode bpp out W H input size).st.pos) ∧
    (∀ size', size ≤ size' →
      ((rle_decode bpp out W H input size).ok = true →
        size' ≤ (rle_decode bpp out W H input size).st.pos) →
      rle_decode bpp out W H input size' = rle_decode bpp out W H input size) ∧
    ((rle_decode bpp out W H input size).ok = false →
      (W ≤ (rle_decode bpp out W H input size).st.x ∧
        (rle_decode bpp out W H input size).st.height = 0) ∨
      ¬ hasBody (rle_decode bpp out W H input size).st.opcode) := by
  obtain ⟨_, ht, hf⟩ := decode_spec bpp H out input size hW
  refine ⟨fun h => (ht h).1, fun size' hle h => ?_, fun h => (hf h).2⟩
  exact runs_extend input hW size size' hle size size' (init bpp out W H)
    (init_inv bpp out W H) (Nat.sub_le _ _) (Nat.sub_le _ _) h

/-- C3 (witness): the statement for the buffer `F0 01 00` cut after its first byte. -/
theorem C3_witness :
    0 < 1 ∧
    ((rle_decode_uint8 (fun _ => 0) 1 1 (bytes [0xF0, 1, 0]) 1).ok = true →
      1 ≤ (rle_decode_uint8 (fun _ => 0) 1 1 (bytes [0xF0, 1, 0]) 1).st.pos) ∧
    (∀ size', 1 ≤ size' →
      ((rle_decode_uint8 (fun _ => 0) 1 1 (bytes [0xF0, 1, 0]) 1).ok = true →
        size' ≤ (rle_decode_uint8 (fun _ => 0) 1 1 (bytes [0xF0, 1, 0]) 1).st.pos) →
      rle_decode_uint8 (fun _ => 0) 1 1 (bytes [0xF0, 1, 0]) size' =
        rle_decode_uint8 (fun _ => 0) 1 1 (bytes [0xF0, 1, 0]) 1) :=
  ⟨by decide,
    (C3_truncation_not_detected 1 1 1 (fun _ => 0) (bytes [0xF0, 1, 0]) 1 (by decide)).1,
    (C3_truncation_not_detected 1 1 1 (fun _ => 0) (bytes [0xF0, 1, 0]) 1 (by decide)).2.1⟩

/-- C3 (counterexample): the one-byte input `F0` ends before the 16-bit count of its
Fill run.  With zero bytes behind it in memory the 8-bit decoder reads the bytes at
positions 1 and 2 (the cursor ends at 3 > size = 1) and returns true. -/
theorem C3_counterexample :
    ((rle_decode_uint8 (fun _ => 0) 1 1 (bytes [0xF0]) 1).ok = true ∧
      (rle_decode_uint8 (fun _ => 0) 1 1 (bytes [0xF0]) 1).st.pos = 3) ∧
    ¬ ((rle_decode_uint8 (fun _ => 0) 1 1 (bytes [0xF0]) 1).ok = false ∧
      (rle_decode_uint8 (fun _ => 0) 1 1 (bytes [0xF0]) 1).st.pos ≤ 1) := by
  decide

/-- C5 (amended): whenever the code byte of a run resolves to a kind without body rule
and the resolved count is at least 1, the run returns false and so does the decoder;
this holds for every width, height and cursor state.  The code bytes `A0`..`BF`
resolve to kind 5 with a count ≥ 1, the code bytes `FB`, `FC`, `FF` to the kinds
`0xB`, `0xC`, `0xF` with count 1, and the code byte `F5` to kind 5 with the 16-bit
count that follows it (the statement covers it when that count is not zero). -/
theorem C5_no_body_rule (bpp W : Nat) (input : Nat → Nat) (s : State) (size n : Nat)
    (hp : s.pos < size) :
    (¬ hasBody (header bpp W input s).opcode → 0 < (header bpp W input s).count →
      (run bpp W input s).1 = false ∧ (runs bpp W input size (n + 1) s).ok = false) ∧
    (0xA0 ≤ input s.pos % 256 → input s.pos % 256 ≤ 0xBF →
      (header bpp W input s).opcode = 5 ∧ 0 < (header bpp W input s).count) ∧
    (input s.pos % 256 = 0xFB ∨ input s.pos % 256 = 0xFC ∨ input s.pos % 256 = 0xFF →
      (header bpp W input s).opcode = input s.pos % 256 &&& 0xf ∧
        ¬ hasBody (input s.pos % 256 &&& 0xf) ∧ (header bpp W input s).count = 1) ∧
    (input s.pos % 256 = 0xF5 →
      (header bpp W input s).opcode = 5 ∧
        (header bpp W input s).count =
          input (s.pos + 1) % 256 ||| (input (s.pos + 2) % 256) <<< 8) := by
  refine ⟨fun hk hc => ?_, fun h1 h2 => header_A0_BF bpp W input s _ rfl h1 h2, fun h => ?_,
    fun h => header_F5 bpp W input s h⟩
  · have hr : (run bpp W input s).1 = false := by
      unfold run
      exact body_no_rule bpp W input _ _ hk hc
    refine ⟨hr, ?_⟩
    cases hq : run bpp W input s with
    | mk b s1 =>
      rw [hq] at hr
      simp only at hr
      subst hr
      simp only [runs, hp, if_true, hq]
  · obtain ⟨h1, h2⟩ := header_FB_FC_FF bpp W input s h
    refine ⟨h1, ?_, h2⟩
    rcases h with h | h | h <;> rw [h] <;> decide

/-- C5 (witness): the code byte `A3` resolves to kind 5 with count 3 and the decoder returns false. -/
theorem C5_witness :
    0 < 1 ∧
    (¬ hasBody (header 1 1 (bytes [0xA3]) (init 1 (fun _ => 0) 1 1)).opcode →
      0 < (header 1 1 (bytes [0xA3]) (init 1 (fun _ => 0) 1 1)).count →
      (run 1 1 (bytes [0xA3]) (init 1 (fun _ => 0) 1 1)).1 = false ∧
        (rle_decode_uint8 (fun _ => 0) 1 1 (bytes [0xA3]) 1).ok = false) :=
  ⟨by decide, (C5_no_body_rule 1 1 (bytes [0xA3]) (init 1 (fun _ => 0) 1 1) 1 0 (by decide)).1⟩

/-- C5 (counterexample): the stream `F5 00 00` is a run of kind 5 (no body rule) with
the extended 16-bit count zero; the 8-bit decoder skips it and returns true. -/
theorem C5_counterexample :
    (header 1 1 (bytes [0xF5, 0, 0]) (init 1 (fun _ => 0) 1 1)).opcode = 5 ∧
    ¬ hasBody (header 1 1 (bytes [0xF5, 0, 0]) (init 1 (fun _ => 0) 1 1)).opcode ∧
    ¬ ((rle_decode_uint8 (fun _ => 0) 1 1 (bytes [0xF5, 0, 0]) 3).ok = false) := by
  decide
/-! ## The run body pixel by pixel -/

theorem stmt_kindStmt (bpp : Nat) (input : Nat → Nat) (kind : Nat) :
    Stmt bpp (kindStmt bpp input kind) := by
  intro s hl
  unfold kindStmt
  split_ifs
  · exact stmt_stFill bpp _ s hl
  · exact stmt_stMix bpp _ s hl
  · exact stmt_stFillOrMix bpp input _ s hl
  · exact stmt_stColor bpp s hl
  · exact stmt_stCopy bpp input s hl
  · exact stmt_stBicolor bpp s hl
  · exact stmt_stWhite bpp s hl
  · exact stmt_stBlack bpp s hl

/-- One pass of `flat` from a state with pixels to emit and room for one. -/
theorem flat_step {bpp W H : Nat} {st : State → State} (hst : Stmt bpp st) (hW : 0 < W)
    {s : State} (hs : Inv bpp W H s) (hc : 0 < s.count) (hr : 0 < room W s) (k : Nat) :
    ∃ s1, openRow bpp W s = some s1 ∧
      flat bpp W st (k + 1) s = flat bpp W st k (advance (st s1)) ∧
      Inv bpp W H s1 ∧ s1.x < W ∧ Inv bpp W H (advance (st s1)) ∧
      room W (advance (st s1)) + 1 = room W s ∧
      (advance (st s1)).log.length = s.log.length + 1 := by
  cases ho : openRow bpp W s with
  | none =>
    obtain ⟨h1, h2⟩ := openRow_none ho
    unfold room at hr
    rw [h2] at hr
    omega
  | some s1 =>
    obtain ⟨o1, _, o3, o4, _, o6, _⟩ := openRow_spec hs hW ho
    obtain ⟨t, v, e, hv, hk⟩ := hst s1 o1.toLens
    have hstep := Inv.step o1 o3 hk hv
    obtain ⟨_, _, x3, _, _⟩ := @poke_ext bpp s1 t v hk
    rw [← e] at hstep x3
    refine ⟨s1, rfl, ?_, o1, o3, hstep, ?_, by rw [x3, o4]⟩
    · simp only [flat, hc, if_true, ho]
    · have r1 := hstep.room_eq
      have r2 := o1.room_eq
      rw [← o6]
      omega

theorem flat_fuel {bpp W H : Nat} {st : State → State} (hst : Stmt bpp st) (hW : 0 < W) :
    ∀ (k k' : Nat) (s : State), Inv bpp W H s → room W s < k → room W s < k' →
      flat bpp W st k s = flat bpp W st k' s := by
  intro k
  induction k with
  | zero => intro k' s _ h; omega
  | succ k ih =>
    intro k' s hs h1 h2
    cases k' with
    | zero => omega
    | succ k' =>
      by_cases hc : 0 < s.count
      · cases ho : openRow bpp W s with
        | none => simp only [flat, hc, if_true, ho]
        | some s1 =>
          have hr : 0 < room W s := by
            rcases Nat.eq_zero_or_pos (room W s) with h0 | h0
            · unfold room at h0
              unfold openRow at ho
              have hh : s.height = 0 := by
                rcases Nat.eq_zero_or_pos s.height with h | h
                · exact h
                · have : 0 < s.height * W := Nat.mul_pos h hW
                  omega
              rw [if_pos (by omega), if_pos (by omega)] at ho
              cases ho
            · exact h0
          obtain ⟨s1', e1, e2, _, _, i5, i6, _⟩ := flat_step hst hW hs hc hr k
          obtain ⟨s1'', e1', e2', _⟩ := flat_step hst hW hs hc hr k'
          rw [ho] at e1 e1'
          cases e1
          cases e1'
          rw [e2, e2']
          exact ih k' _ i5 (by omega) (by omega)
      · simp only [flat, hc, if_false]

theorem flat_REPEAT {bpp W H : Nat} {st st' : State → State} (hst : Stmt bpp st) (hW : 0 < W)
    (p : Option Nat) (hp : ∀ t, t.prevline = p → st' t = st t) (k : Nat) :
    ∀ (m : Nat) (s : State), Inv bpp W H s → s.prevline = p → room W s < k →
      flat bpp W st k (REPEAT W st' m s) = flat bpp W st k s := by
  intro m
  induction m with
  | zero => intro s _ _ _; rfl
  | succ m ih =>
    intro s hs hpl hr
    by_cases hc : 0 < s.count ∧ s.x < W
    · have e : REPEAT W st' (m + 1) s = REPEAT W st' m (advance (st' s)) := by
        simp only [REPEAT, hc, and_self, if_true]
      rw [e, hp s hpl]
      cases k with
      | zero => omega
      | succ k =>
        have hroom : 0 < room W s := by unfold room; omega
        obtain ⟨s1, e1, e2, _, _, i5, i6, _⟩ := flat_step hst hW hs hc.1 hroom k
        have hs1 : s1 = s := by
          unfold openRow at e1
          rw [if_neg (by omega)] at e1
          exact (Option.some.inj e1).symm
        subst hs1
        obtain ⟨t, v, e, _, hk⟩ := hst s1 hs.toLens
        have hpl' : (advance (st s1)).prevline = p := by
          rw [e]
          simp only [advance, poke, hk.prevline]
          exact hpl
        rw [ih _ i5 hpl' (by omega), e2]
        exact flat_fuel hst hW _ _ _ i5 (by omega) (by omega)
    · have e : REPEAT W st' (m + 1) s = s := by
        simp only [REPEAT, hc, if_false]
      rw [e]
theorem bodySwitch_kind (bpp W : Nat) (input : Nat → Nat) (s : State) (hK : hasBody s.opcode)
    (hi : s.opcode = 0 → s.insertmix = false) :
    ∃ st', bodySwitch bpp W input s = some (REPEAT W st' (W - s.x) s) ∧
      ∀ t, t.prevline = s.prevline → st' t = kindStmt bpp input s.opcode t := by
  unfold hasBody at hK
  rcases hK with h | h | h | h | h | h | h | h
  · have hm : insertMix bpp s = s := by
      unfold insertMix
      rw [hi h]
      rfl
    refine ⟨stFill bpp s.prevline, ?_, fun t ht => ?_⟩
    · simp only [bodySwitch, h, if_true, hm]
    · simp only [kindStmt, h, if_true, ht]
  · refine ⟨stMix bpp s.prevline, ?_, fun t ht => ?_⟩
    · simp [bodySwitch, h]
    · simp [kindStmt, h, ht]
  · refine ⟨stFillOrMix bpp input s.prevline, ?_, fun t ht => ?_⟩
    · simp [bodySwitch, h]
    · simp [kindStmt, h, ht]
  · refine ⟨stColor bpp, ?_, fun t _ => ?_⟩
    · simp [bodySwitch, h]
    · simp [kindStmt, h]
  · refine ⟨stCopy bpp input, ?_, fun t _ => ?_⟩
    · simp [bodySwitch, h]
    · simp [kindStmt, h]
  · refine ⟨stBicolor bpp, ?_, fun t _ => ?_⟩
    · simp [bodySwitch, h]
    · simp [kindStmt, h]
  · refine ⟨stWhite bpp, ?_, fun t _ => ?_⟩
    · simp [bodySwitch, h]
    · simp [kindStmt, h]
  · refine ⟨stBlack bpp, ?_, fun t _ => ?_⟩
    · simp [bodySwitch, h]
    · simp [kindStmt, h]

theorem flat_openRow {bpp W H : Nat} {st : State → State} (hW : 0 < W) {s s1 : State}
    (hs : Inv bpp W H s) (hc : 0 < s.count) (ho : openRow bpp W s = some s1) (k : Nat) :
    flat bpp W st (k + 1) s1 = flat bpp W st (k + 1) s := by
  obtain ⟨_, _, o3, _, o5, _⟩ := openRow_spec hs hW ho
  have ho1 : openRow bpp W s1 = some s1 := by
    unfold openRow
    rw [if_neg (by omega)]
  have hc1 : 0 < s1.count := by rw [o5]; exact hc
  simp only [flat, hc, hc1, if_true, ho, ho1]

/-- The run body of a kind with a body rule (for Fill: with no pending mix
insertion) makes the same passes as the pixel-by-pixel loop. -/
theorem body_eq_flat {bpp W H : Nat} (input : Nat → Nat) (hW : 0 < W) (K : Nat)
    (hK : hasBody K) :
    ∀ (n k : Nat) (s : State), Inv bpp W H s → s.opcode = K →
      (K = 0 → s.insertmix = false) → room W s < n → room W s < k →
      body bpp W input n s = flat bpp W (kindStmt bpp input K) k s := by
  intro n
  induction n with
  | zero => intro k s _ _ _ h; omega
  | succ n ih =>
    intro k s hs hop hi hn hk
    cases k with
    | zero => omega
    | succ k =>
      by_cases hc : 0 < s.count
      · cases ho : openRow bpp W s with
        | none => simp only [body, flat, hc, if_true, ho]
        | some s1 =>
          obtain ⟨o1, o2, o3, o4, o5, o6, o7, _⟩ := openRow_spec hs hW ho
          have hop1 : s1.opcode = K := o2.opcode.trans hop
          have hi1 : s1.opcode = 0 → s1.insertmix = false := by
            intro h
            rw [o7]
            exact hi (hop1.symm.trans h)
          obtain ⟨st', e1, e2⟩ := bodySwitch_kind bpp W input s1 (by rw [hop1]; exact hK) hi1
          have hc1 : 0 < s1.count := by rw [o5]; exact hc
          obtain ⟨b1, b2, _, b4, _, b6⟩ := bodySwitch_spec o1 o3 hc1 e1
          have e : body bpp W input (n + 1) s =
              body bpp W input n (REPEAT W st' (W - s1.x) s1) := by
            simp only [body, hc, if_true, ho, e1]
          have r1 := b1.room_eq
          have r2 := o1.room_eq
          rw [e, ih (k + 1) _ b1 (b2.opcode.trans hop1)
            (fun h => b6 (hi1 (hop1.trans h))) (by omega) (by omega)]
          rw [hop1] at e2
          rw [flat_REPEAT (stmt_kindStmt bpp input K) hW s1.prevline e2 (k + 1) _ s1 o1 rfl
            (by omega)]
          exact flat_openRow hW hs hc ho k
      · simp only [body, flat, hc, if_false]
theorem openRow_eq {bpp W : Nat} {t t1 : State} (h : openRow bpp W t = some t1) :
    ∃ x hh pl l, t1 = { t with x := x, height := hh, prevline := pl, line := l } := by
  unfold openRow at h
  split_ifs at h
  · exact ⟨_, _, _, _, (Option.some.inj h).symm⟩
  · exact ⟨t.x, t.height, t.prevline, t.line, (Option.some.inj h).symm⟩

/-- A run body that needs exactly `M` more passes, described by a predicate `P j` on
the state after `j` passes, makes them and ends with `return`-free exit. -/
theorem flat_steps {bpp W H : Nat} {st : State → State} (hst : Stmt bpp st) (hW : 0 < W)
    (P : Nat → State → Prop) (M : Nat)
    (hpos : ∀ j t, j < M → P j t → 0 < t.count)
    (hend : ∀ t, P M t → t.count = 0)
    (hP : ∀ j t t1, j < M → Inv bpp W H t → P j t → openRow bpp W t = some t1 →
      Inv bpp W H t1 → t1.x < W → P (j + 1) (advance (st t1))) :
    ∀ (d j k : Nat) (s : State), j + d = M → Inv bpp W H s → d ≤ room W s → d < k → P j s →
      (flat bpp W st k s).1 = true ∧ P M (flat bpp W st k s).2 ∧
        Inv bpp W H (flat bpp W st k s).2 := by
  intro d
  induction d with
  | zero =>
    intro j k s hj hs _ hk hp
    have hj' : j = M := by omega
    subst hj'
    have hc : ¬ 0 < s.count := by rw [hend s hp]; exact Nat.lt_irrefl 0
    cases k with
    | zero => omega
    | succ k =>
      have e : flat bpp W st (k + 1) s = (true, s) := by simp only [flat, hc, if_false]
      rw [e]
      exact ⟨rfl, hp, hs⟩
  | succ d ih =>
    intro j k s hj hs hr hk hp
    have hjM : j < M := by omega
    have hc := hpos j s hjM hp
    cases k with
    | zero => omega
    | succ k =>
      obtain ⟨s1, e1, e2, i3, i4, i5, i6, _⟩ := flat_step hst hW hs hc (by omega) k
      rw [e2]
      exact ih (j + 1) k _ (by omega) i5 (by omega) (by omega) (hP j s s1 hjM hs hp e1 i3 i4)

theorem log_snoc_index {log : List Write} {e0 : Write} {L j : Nat} (hlen : log.length = L + j)
    (Q : Nat → Write → Prop) (hold : ∀ i, i < j → ∃ e, log[L + i]? = some e ∧ Q i e)
    (hnew : Q j e0) :
    ∀ i, i < j + 1 → ∃ e, (log ++ [e0])[L + i]? = some e ∧ Q i e := by
  intro i hi
  rcases Nat.lt_or_ge i j with h | h
  · obtain ⟨e, h1, h2⟩ := hold i h
    refine ⟨e, ?_, h2⟩
    rw [List.getElem?_append_left (by omega)]
    exact h1
  · have hij : i = j := by omega
    subst hij
    refine ⟨e0, ?_, hnew⟩
    rw [List.getElem?_append_right (by omega), hlen]
    simp

theorem room_same {W : Nat} {s t : State} (h : Same s t) : room W t = room W s := by
  unfold room
  rw [h.height, h.x]

theorem fuel_gt_room (W : Nat) (s : State) : room W s < (s.height + 1) * (W + 1) := by
  unfold room
  have : s.height * W + (W - s.x) ≤ s.height * W + W := by omega
  calc s.height * W + (W - s.x) ≤ s.height * W + W := this
    _ < (s.height + 1) * (W + 1) := by ring_nf; omega

/-- A run whose kind has a body rule (for Fill: without pending mix insertion) is the
pixel-by-pixel loop of its statement started after the header. -/
theorem run_eq_flat {bpp W H : Nat} (input : Nat → Nat) (hW : 0 < W) {s : State}
    (hs : Inv bpp W H s) (K : Nat) (hK : hasBody K) (hop : (header bpp W input s).opcode = K)
    (hi : K = 0 → (header bpp W input s).insertmix = false) :
    run bpp W input s =
      flat bpp W (kindStmt bpp input K) (((header bpp W input s).height + 1) * (W + 1))
        (header bpp W input s) := by
  obtain ⟨h1, _, _⟩ := header_spec (W := W) input hs
  unfold run
  exact body_eq_flat input hW K hK _ _ _ h1 hop hi (fuel_gt_room W _) (fuel_gt_room W _)

theorem header_eq (bpp W : Nat) (input : Nat → Nat) (s : State) :
    header bpp W input s =
      { preliminary bpp W input (resolve input s) with
        lastopcode := ((preliminary bpp W input (resolve input s)).opcode : Int)
        mixmask := 0 } := rfl

theorem lit_mod (bpp : Nat) (input : Nat → Nat) (p j : Nat) :
    (lit bpp input p j).map (fun b => b % 256) = lit bpp input p j := by
  simp [lit, Nat.mod_mod]

theorem CVALn_fst_lit (bpp : Nat) (input : Nat → Nat) (s : State) :
    (CVALn input bpp s).1 = lit bpp input s.pos 0 := by
  simp [CVALn_fst, lit]

theorem opcodeForm_flags (input : Nat → Nat) (s : State) :
    (opcodeForm input s).1.bicolor = s.bicolor ∧ (opcodeForm input s).1.insertmix = s.insertmix ∧
      (opcodeForm input s).1.lastopcode = s.lastopcode ∧ (opcodeForm input s).1.mix = s.mix ∧
      (opcodeForm input s).1.fom_mask = s.fom_mask := by
  unfold opcodeForm
  simp only []
  split_ifs <;> exact ⟨rfl, rfl, rfl, rfl, rfl⟩

theorem countAdjust_flags (input : Nat → Nat) (s : State) (offset : Nat) :
    (countAdjust input s offset).bicolor = s.bicolor ∧
      (countAdjust input s offset).insertmix = s.insertmix ∧
      (countAdjust input s offset).lastopcode = s.lastopcode ∧
      (countAdjust input s offset).mix = s.mix ∧
      (countAdjust input s offset).fom_mask = s.fom_mask := by
  unfold countAdjust
  simp only []
  split_ifs <;> exact ⟨rfl, rfl, rfl, rfl, rfl⟩

theorem resolve_bicolor (input : Nat → Nat) (s : State) :
    (resolve input s).bicolor = s.bicolor ∧ (resolve input s).insertmix = s.insertmix ∧
      (resolve input s).lastopcode = s.lastopcode ∧ (resolve input s).mix = s.mix ∧
      (resolve input s).fom_mask = 0 := by
  obtain ⟨a1, a2, a3, a4, a5⟩ := opcodeForm_flags input { s with fom_mask := 0 }
  obtain ⟨b1, b2, b3, b4, b5⟩ :=
    countAdjust_flags input (opcodeForm input { s with fom_mask := 0 }).1
      (opcodeForm input { s with fom_mask := 0 }).2
  unfold resolve
  exact ⟨b1.trans a1, b2.trans a2, b3.trans a3, b4.trans a4, b5.trans a5⟩

theorem preliminary_opcode (bpp W : Nat) (input : Nat → Nat) (s : State) :
    (preliminary bpp W input s).opcode =
      if s.opcode = 6 ∨ s.opcode = 7 then s.opcode - 5
      else if s.opcode = 9 ∨ s.opcode = 0xa then 2 else s.opcode := by
  unfold preliminary
  simp only [CVALn_snd]
  split_ifs <;> first | rfl | omega

theorem preliminary_kind8 (bpp W : Nat) (input : Nat → Nat) (s : State) (h8 : s.opcode = 8) :
    preliminary bpp W input s =
      { (CVALn input bpp (CVALn input bpp s).2).2 with
        color1 := (CVALn input bpp s).1
        color2 := (CVALn input bpp (CVALn input bpp s).2).1 } := by
  unfold preliminary
  simp [h8]

/-- The header of a run that resolves to kind 8: both colours are read, `color1` first. -/
theorem header_kind8 (bpp W : Nat) (input : Nat → Nat) (s : State)
    (hop : (header bpp W input s).opcode = 8) :
    (resolve input s).opcode = 8 ∧
      (header bpp W input s).color1 = lit bpp input (resolve input s).pos 0 ∧
      (header bpp W input s).color2 = lit bpp input (resolve input s).pos 1 ∧
      (header bpp W input s).pos = (resolve input s).pos + 2 * bpp ∧
      (header bpp W input s).count = (resolve input s).count ∧
      (header bpp W input s).bicolor = s.bicolor := by
  have hb := (resolve_bicolor input s).1
  have h8 : (resolve input s).opcode = 8 := by
    rw [header_eq] at hop
    simp only at hop
    rw [preliminary_opcode] at hop
    split_ifs at hop <;> omega
  rw [header_eq, preliminary_kind8 bpp W input _ h8]
  refine ⟨h8, ?_, ?_, ?_, ?_, ?_⟩
  · simp [CVALn_fst, lit]
  · simp [CVALn_fst, CVALn_snd, lit]
  · simp only [CVALn_snd]
    omega
  · simp only [CVALn_snd]
  · simp only [CVALn_snd]
    exact hb

theorem flat_bicolor {bpp W H : Nat} (input : Nat → Nat) (hW : 0 < W) (N k : Nat) (s : State)
    (hs : Inv bpp W H s) (hc : s.count = N) (hb : s.bicolor = false)
    (hr : 2 * N ≤ room W s) (hk : 2 * N < k) :
    (flat bpp W (kindStmt bpp input 8) k s).1 = true ∧
      Inv bpp W H (flat bpp W (kindStmt bpp input 8) k s).2 ∧
      (flat bpp W (kindStmt bpp input 8) k s).2.count = 0 ∧
      (flat bpp W (kindStmt bpp input 8) k s).2.bicolor = false ∧
      (flat bpp W (kindStmt bpp input 8) k s).2.pos = s.pos ∧
      (flat bpp W (kindStmt bpp input 8) k s).2.log.length = s.log.length + 2 * N ∧
      ∀ i, i < 2 * N →
        ∃ e, (flat bpp W (kindStmt bpp input 8) k s).2.log[s.log.length + i]? = some e ∧
          e.px = (if i % 2 = 0 then s.color1 else s.color2).map (fun b => b % 256) := by
  have key := flat_steps (H := H) (stmt_kindStmt bpp input 8) hW
    (fun j t => t.bicolor = decide (j % 2 = 1) ∧ t.count = N - j / 2 ∧ t.color1 = s.color1 ∧
      t.color2 = s.color2 ∧ t.pos = s.pos ∧ t.log.length = s.log.length + j ∧
      ∀ i, i < j → ∃ e, t.log[s.log.length + i]? = some e ∧
        e.px = (if i % 2 = 0 then s.color1 else s.color2).map (fun b => b % 256)) (2 * N)
    (fun j t hj hp => by have := hp.2.1; omega)
    (fun t hp => by have := hp.2.1; omega)
    (fun j t t1 hj _ hp ho _ _ => by
      obtain ⟨x, hh, pl, l, rfl⟩ := openRow_eq ho
      obtain ⟨p1, p2, p3, p4, p5, p6, p7⟩ := hp
      have e : kindStmt bpp input 8 = stBicolor bpp := by
        funext u
        simp [kindStmt]
      rw [e]
      rcases Nat.mod_two_eq_zero_or_one j with hj2 | hj2
      · have hbf : t.bicolor = false := by rw [p1]; simp [hj2]
        have hst : stBicolor bpp
            { t with x := x, height := hh, prevline := pl, line := l } =
            { poke bpp { t with x := x, height := hh, prevline := pl, line := l } t.color1 with
              bicolor := true
              count := t.count + 1 } := by
          simp [stBicolor, hbf, poke]
        rw [hst]
        refine ⟨?_, ?_, p3, p4, p5, ?_, ?_⟩
        · have : (j + 1) % 2 = 1 := by omega
          simp [advance, this]
        · simp only [advance, poke]
          omega
        · simp only [advance, poke, List.length_append, List.length_singleton, p6]
          omega
        · simp only [advance, poke]
          apply log_snoc_index p6
            (fun i e => e.px = (if i % 2 = 0 then s.color1 else s.color2).map (fun b => b % 256)) p7
          simp [hj2, p3]
      · have hbf : t.bicolor = true := by rw [p1]; simp [hj2]
        have hst : stBicolor bpp
            { t with x := x, height := hh, prevline := pl, line := l } =
            { poke bpp { t with x := x, height := hh, prevline := pl, line := l } t.color2 with
              bicolor := false } := by
          simp [stBicolor, hbf, poke]
        rw [hst]
        refine ⟨?_, ?_, p3, p4, p5, ?_, ?_⟩
        · have : (j + 1) % 2 = 0 := by omega
          simp [advance, this]
        · simp only [advance, poke]
          omega
        · simp only [advance, poke, List.length_append, List.length_singleton, p6]
          omega
        · simp only [advance, poke]
          apply log_snoc_index p6
            (fun i e => e.px = (if i % 2 = 0 then s.color1 else s.color2).map (fun b => b % 256)) p7
          simp [hj2, p4])
    (2 * N) 0 k s (by omega) hs hr hk
    ⟨by simp [hb], by omega, rfl, rfl, rfl, by omega, fun i hi => by omega⟩
  obtain ⟨k1, ⟨k2, k3, _, _, k6, k7, k8⟩, k9⟩ := key
  refine ⟨k1, k9, by omega, ?_, k6, k7, k8⟩
  rw [k2]
  simp
/-- Shared by the Bicolor statements: the run from the header state. -/
theorem run_bicolor {bpp W H : Nat} (input : Nat → Nat) (hW : 0 < W) {s : State} (N : Nat)
    (hs : Inv bpp W H s) (hop : (header bpp W input s).opcode = 8)
    (hc : (header bpp W input s).count = N) (hb : s.bicolor = false) (hr : 2 * N ≤ room W s) :
    (run bpp W input s).1 = true ∧ Inv bpp W H (run bpp W input s).2 ∧
      (run bpp W input s).2.count = 0 ∧ (run bpp W input s).2.bicolor = false ∧
      (run bpp W input s).2.pos = (header bpp W input s).pos ∧
      (run bpp W input s).2.log.length = s.log.length + 2 * N ∧
      ∀ i, i < 2 * N → ∃ e, (run bpp W input s).2.log[s.log.length + i]? = some e ∧
        e.px = if i % 2 = 0 then (header bpp W input s).color1
          else (header bpp W input s).color2 := by
  obtain ⟨h1, h2, _⟩ := header_spec (W := W) input hs
  obtain ⟨_, c1, c2, _, _, c6⟩ := header_kind8 bpp W input s hop
  have hroom : 2 * N ≤ room W (header bpp W input s) := by rw [room_same h2]; exact hr
  have e := run_eq_flat input hW hs 8 (by unfold hasBody; omega) hop (by omega)
  obtain ⟨f1, f2, f3, f4, f5, f6, f7⟩ :=
    flat_bicolor input hW N (((header bpp W input s).height + 1) * (W + 1)) _ h1 hc
      (c6.trans hb) hroom (Nat.lt_of_le_of_lt hroom (fuel_gt_room W _))
  rw [← e] at f1 f2 f3 f4 f5 f6 f7
  rw [h2.log] at f6 f7
  refine ⟨f1, f2, f3, f4, f5, f6, fun i hi => ?_⟩
  obtain ⟨e0, g1, g2⟩ := f7 i hi
  refine ⟨e0, g1, ?_⟩
  rw [g2]
  split_ifs
  · rw [c1, lit_mod]
  · rw [c2, lit_mod]

/-- C7 (amended): a Bicolor run (kind 8) of encoded count `N`, odd or even, started
with the toggle in its initial phase and at least `2 * N` pixel positions left,
returns without failure and writes exactly `2 * N` pixels: each unit of the count
yields one pixel pair, because the pass that writes the first colour of a pair
also does `count++`.  For encoded count 3 that is 6 pixels. -/
theorem C7_bicolor_writes_2N (bpp W H : Nat) (input : Nat → Nat) (s : State) (N : Nat)
    (hW : 0 < W) (hs : Inv bpp W H s) (hop : (header bpp W input s).opcode = 8)
    (hc : (header bpp W input s).count = N) (hb : s.bicolor = false) (hr : 2 * N ≤ room W s) :
    (run bpp W input s).1 = true ∧
      (run bpp W input s).2.log.length = s.log.length + 2 * N ∧
      (run bpp W input s).2.count = 0 := by
  obtain ⟨f1, _, f3, _, _, f6, _⟩ := run_bicolor input hW N hs hop hc hb hr
  exact ⟨f1, f6, f3⟩

/-- C7 (witness): the Bicolor run `E3 AA BB` from the initial state of an 8 by 1 raster. -/
theorem C7_witness :
    0 < 8 ∧ Inv 1 8 1 (init 1 (fun _ => 0) 8 1) ∧
    (header 1 8 (bytes [0xE3, 0xAA, 0xBB]) (init 1 (fun _ => 0) 8 1)).opcode = 8 ∧
    (header 1 8 (bytes [0xE3, 0xAA, 0xBB]) (init 1 (fun _ => 0) 8 1)).count = 3 ∧
    (init 1 (fun _ => 0) 8 1).bicolor = false ∧ 2 * 3 ≤ room 8 (init 1 (fun _ => 0) 8 1) ∧
    (run 1 8 (bytes [0xE3, 0xAA, 0xBB]) (init 1 (fun _ => 0) 8 1)).1 = true ∧
    (run 1 8 (bytes [0xE3, 0xAA, 0xBB]) (init 1 (fun _ => 0) 8 1)).2.log.length =
      (init 1 (fun _ => 0) 8 1).log.length + 2 * 3 ∧
    (run 1 8 (bytes [0xE3, 0xAA, 0xBB]) (init 1 (fun _ => 0) 8 1)).2.count = 0 :=
  ⟨by decide, init_inv 1 (fun _ => 0) 8 1, by decide, by decide, rfl, by decide,
    C7_bicolor_writes_2N 1 8 1 (bytes [0xE3, 0xAA, 0xBB]) (init 1 (fun _ => 0) 8 1) 3
      (by decide) (init_inv 1 (fun _ => 0) 8 1) (by decide) (by decide) rfl (by decide)⟩

/-- C7 (counterexample): the stream `E3 AA BB` is a Bicolor run of encoded count 3;
on a raster of 8 by 1 the 8-bit decoder writes 6 pixels, not 3 + 1. -/
theorem C7_counterexample :
    (header 1 8 (bytes [0xE3, 0xAA, 0xBB]) (init 1 (fun _ => 0) 8 1)).opcode = 8 ∧
    (header 1 8 (bytes [0xE3, 0xAA, 0xBB]) (init 1 (fun _ => 0) 8 1)).count = 3 ∧
    (rle_decode_uint8 (fun _ => 0) 8 1 (bytes [0xE3, 0xAA, 0xBB]) 3).ok = true ∧
    (rle_decode_uint8 (fun _ => 0) 8 1 (bytes [0xE3, 0xAA, 0xBB]) 3).st.log.length = 6 ∧
    ¬ ((rle_decode_uint8 (fun _ => 0) 8 1 (bytes [0xE3, 0xAA, 0xBB]) 3).st.log.length = 3 + 1) := by
  decide

theorem pvAt_stable {bpp W : Nat} {log log' : List Write} (hp : log <+: log') {i : Nat}
    (hi : i < W ∨ i - W < log.length) : pvAt bpp W log' i = pvAt bpp W log i := by
  unfold pvAt
  by_cases h : i < W
  · simp only [h, if_true]
  · simp only [h, if_false]
    have h2 : i - W < log.length := by
      rcases hi with h1 | h1
      · exact absurd h1 h
      · exact h1
    obtain ⟨t, rfl⟩ := hp
    rw [List.getElem?_append_left h2]

/-- What the decoder reads through `prevline` at an open position is the pixel one
row below in the trace. -/
theorem pv_eq {bpp W H : Nat} {s : State} (hs : Inv bpp W H s) (hx : s.x < W) :
    (match s.prevline with
      | none => zeroPx bpp
      | some p => peek bpp s.output p s.x) = pvAt bpp W s.log s.log.length := by
  obtain ⟨hh, hlen⟩ := hs.open_row hx
  unfold pvAt
  rcases Nat.lt_or_ge (s.height + 1) H with h1 | h1
  · have hq : H - s.height - 1 = (H - s.height - 2) + 1 := by omega
    have hlen' : s.log.length = (H - s.height - 2) * W + s.x + W := by
      rw [hlen, hq, Nat.add_mul, Nat.one_mul]
      omega
    have hge : ¬ s.log.length < W := by omega
    have hj : s.log.length - W = (H - s.height - 2) * W + s.x := by omega
    have hjlt : s.log.length - W < s.log.length := by omega
    rw [hs.prev_some h1, if_neg hge, List.getElem?_eq_getElem hjlt]
    simp only
    obtain ⟨_, _, _, e4⟩ := hs.ent (s.log.length - W) _ (List.getElem?_eq_getElem hjlt)
    rw [← e4]
    have hdiv : (s.log.length - W) / W = H - s.height - 2 := by
      rw [hj, Nat.add_comm, Nat.add_mul_div_right _ _ (by omega : 0 < W), Nat.div_eq_of_lt hx,
        Nat.zero_add]
    have hmod : (s.log.length - W) % W = s.x := by
      rw [hj, Nat.add_comm, Nat.add_mul_mod_self_right, Nat.mod_eq_of_lt hx]
    have hrow : rowOff bpp W H (s.log.length - W) = (s.height + 1) * (W * bpp) := by
      unfold rowOff
      rw [hdiv]
      congr 1
      omega
    rw [hrow, hmod]
  · have h2 : s.height + 1 = H := by omega
    have h3 : H - s.height - 1 = 0 := by omega
    rw [h3, Nat.zero_mul, Nat.zero_add] at hlen
    rw [hs.prev_none h2, if_pos (by omega)]

theorem pxor_zero (bpp : Nat) (m : List Nat) (hm : m.length = bpp) : pxor (zeroPx bpp) m = m := by
  subst hm
  unfold pxor zeroPx
  induction m with
  | nil => rfl
  | cons a as ih =>
    simp only [List.length_cons, List.replicate_succ, List.zipWith_cons_cons, ih]
    simp

theorem stFill_eq {bpp W H : Nat} {s : State} (hs : Inv bpp W H s) (hx : s.x < W) :
    stFill bpp s.prevline s = poke bpp s (pvAt bpp W s.log s.log.length) := by
  rw [← pv_eq hs hx]
  unfold stFill
  cases s.prevline <;> rfl

theorem stMix_eq {bpp W H : Nat} {s : State} (hs : Inv bpp W H s) (hx : s.x < W) :
    stMix bpp s.prevline s = poke bpp s (pxor (pvAt bpp W s.log s.log.length) s.mix) := by
  rw [← pv_eq hs hx]
  unfold stMix
  cases s.prevline with
  | none => simp only [pxor_zero bpp s.mix hs.mx]
  | some p => rfl

theorem resolve_same (input : Nat → Nat) (s : State) : Same s (resolve input s) := by
  have h0 : Same s { s with fom_mask := 0 } := ⟨rfl, rfl, rfl, rfl, rfl, rfl, Nat.le_refl _⟩
  have f1 := (opcodeForm_same input { s with fom_mask := 0 }).1
  have c1 := (countAdjust_same input (opcodeForm input { s with fom_mask := 0 }).1
    (opcodeForm input { s with fom_mask := 0 }).2).1
  exact (h0.strans f1).strans c1

theorem pow_bits : ∀ j, j < 8 →
    ((2 ^ j &&& 0xff ≠ 0) ∧ ((3 &&& 2 ^ j ≠ 0) ↔ j < 2) ∧ (2 ^ j) <<< 1 = 2 ^ (j + 1)) := by
  decide

theorem openRow_fields {bpp W : Nat} {t t1 : State} (h : openRow bpp W t = some t1) :
    t1.log = t.log ∧ t1.count = t.count ∧ t1.mix = t.mix ∧ t1.pos = t.pos ∧
      t1.fom_mask = t.fom_mask ∧ t1.mask = t.mask ∧ t1.mixmask = t.mixmask := by
  obtain ⟨x, hh, pl, l, rfl⟩ := openRow_eq h
  exact ⟨rfl, rfl, rfl, rfl, rfl, rfl, rfl⟩

theorem body_exhausted (bpp W : Nat) (input : Nat → Nat) (n : Nat) (s : State)
    (hc : 0 < s.count) (hx : W ≤ s.x) (hh : s.height = 0) :
    body bpp W input (n + 1) s = (false, s) := by
  have ho : openRow bpp W s = none := by
    unfold openRow
    rw [if_pos hx, if_pos (by omega)]
  simp only [body, hc, if_true, ho]

theorem runs_of_run_false (bpp W : Nat) (input : Nat → Nat) (size n : Nat) (s : State)
    (hp : s.pos < size) (hr : (run bpp W input s).1 = false) :
    runs bpp W input size (n + 1) s = { ok := false, st := (run bpp W input s).2 } := by
  cases hq : run bpp W input s with
  | mk b s1 =>
    rw [hq] at hr
    simp only at hr
    subst hr
    simp only [runs, hp, if_true, hq]

theorem preliminary_geom (bpp W : Nat) (input : Nat → Nat) (s : State) :
    Same s (preliminary bpp W input s) := by
  unfold preliminary
  simp only [CVALn_snd]
  split_ifs <;>
    exact ⟨rfl, rfl, rfl, rfl, rfl, rfl, by first | exact Nat.le_refl _ | (simp only []; omega)⟩

theorem header_geom (bpp W : Nat) (input : Nat → Nat) (s : State) :
    Same s (header bpp W input s) := by
  have h1 := resolve_same input s
  have h2 := preliminary_geom bpp W input (resolve input s)
  have h3 := h1.strans h2
  rw [header_eq]
  exact ⟨h3.output, h3.log, h3.height, h3.prevline, h3.line, h3.x, h3.pos⟩

/-- C11 (amended): for every width > 0 and every input, decoding with height 0 writes
nothing: the trace is empty and the output memory is unchanged.  Every run of
resolved count ≥ 1 that starts with no row left makes the decoder return false; in
particular the decoder returns false on every non-empty input whose first run has a
resolved count ≥ 1.  Runs of resolved count 0 are skipped. -/
theorem C11_height_zero (bpp W : Nat) (out input : Nat → Nat) (size : Nat) (hW : 0 < W) :
    (rle_decode bpp out W 0 input size).st.log = [] ∧
    (rle_decode bpp out W 0 input size).st.output = out ∧
    (∀ (n : Nat) (s : State), s.height = 0 → W ≤ s.x → s.pos < size →
      0 < (header bpp W input s).count →
      (runs bpp W input size (n + 1) s).ok = false) ∧
    (0 < size → 0 < (header bpp W input (init bpp out W 0)).count →
      (rle_decode bpp out W 0 input size).ok = false) := by
  have hinv := (decode_spec bpp 0 out input size hW).1
  have hlog : (rle_decode bpp out W 0 input size).st.log = [] := by
    have := hinv.log_le
    rw [Nat.zero_mul] at this
    exact List.length_eq_zero.mp (Nat.le_zero.mp this)
  have key : ∀ (n : Nat) (s : State), s.height = 0 → W ≤ s.x → s.pos < size →
      0 < (header bpp W input s).count →
      (runs bpp W input size (n + 1) s).ok = false := by
    intro n s hh hx hp hc
    have hg := header_geom bpp W input s
    have hr : (run bpp W input s).1 = false := by
      show (body bpp W input (((header bpp W input s).height + 1) * (W + 1))
        (header bpp W input s)).1 = false
      rw [hg.height, hh]
      have e : (0 + 1) * (W + 1) = W + 1 := by omega
      rw [e, body_exhausted bpp W input W _ hc (by rw [hg.x]; exact hx) (by rw [hg.height, hh])]
    rw [runs_of_run_false bpp W input size n s hp hr]
  refine ⟨hlog, ?_, key, fun hsz hc => ?_⟩
  · have := decode_replay bpp 0 out input size hW
    rw [hlog] at this
    exact this
  · obtain ⟨m, hm⟩ : ∃ m, size = m + 1 := ⟨size - 1, by omega⟩
    have hk := key m (init bpp out W 0) rfl (Nat.le_refl _) hsz hc
    show (runs bpp W input size size (init bpp out W 0)).ok = false
    rw [hm] at hk ⊢
    exact hk

/-- C11 (witness): width 3, height 0 and the stream `63 55` (a Color run of 3 pixels). -/
theorem C11_witness :
    0 < 3 ∧
    (rle_decode_uint8 (fun _ => 7) 3 0 (bytes [0x63, 0x55]) 2).st.log = [] ∧
    (rle_decode_uint8 (fun _ => 7) 3 0 (bytes [0x63, 0x55]) 2).st.output = (fun _ => 7) :=
  ⟨by decide, (C11_height_zero 1 3 (fun _ => 7) (bytes [0x63, 0x55]) 2 (by decide)).1,
    (C11_height_zero 1 3 (fun _ => 7) (bytes [0x63, 0x55]) 2 (by decide)).2.1⟩

/-- C11 (counterexample): the non-empty stream `F0 00 00` (a Fill run with the 16-bit
count zero) decoded with width 1 and height 0 returns true. -/
theorem C11_counterexample :
    0 < 1 ∧ 0 < 3 ∧
    ¬ ((rle_decode_uint8 (fun _ => 0) 1 0 (bytes [0xF0, 0, 0]) 3).ok = false) := by
  decide

theorem le16_eq (b0 b1 : Nat) (h : b0 < 256) : b0 ||| b1 <<< 8 = b0 + 256 * b1 := by
  have := @Nat.mul_add_lt_is_or 8 b0 (by simpa using h) b1
  rw [Nat.shiftLeft_eq, Nat.lor_comm, Nat.mul_comm b1, ← this]
  omega

/-- C13: the resolution of the code byte done by the decoders (`resolve`, the first two
blocks of a pass of the outer loop) gives the kind, the count and the number of
bytes read that the rule of the specification (`specResolve`) gives, for every code
byte and all following bytes, in every state. -/
theorem C13_resolution (input : Nat → Nat) (s : State) :
    (resolve input s).opcode =
      (specResolve (input s.pos % 256) (fun i => input (s.pos + 1 + i) % 256)).1 ∧
    (resolve input s).count =
      (specResolve (input s.pos % 256) (fun i => input (s.pos + 1 + i) % 256)).2.1 ∧
    (resolve input s).pos =
      s.pos + 1 + (specResolve (input s.pos % 256) (fun i => input (s.pos + 1 + i) % 256)).2.2 := by
  have h16 := le16_eq (input (s.pos + 1) % 256) (input (s.pos + 1 + 1) % 256)
    (Nat.mod_lt _ (by decide))
  unfold resolve opcodeForm countAdjust specResolve specCount
  simp only [CVAL_fst, CVAL_snd]
  split_ifs <;> simp_all [Nat.shiftLeft_eq]

/-! ## Mix and Fill runs, the mix colour (C14) -/

theorem preliminary_mix (bpp W : Nat) (input : Nat → Nat) (s : State) :
    (s.opcode = 6 ∨ s.opcode = 7 →
      (preliminary bpp W input s).mix = lit bpp input s.pos 0 ∧
      (preliminary bpp W input s).pos = s.pos + bpp ∧
      (preliminary bpp W input s).opcode = s.opcode - 5 ∧
      (preliminary bpp W input s).count = s.count ∧
      (preliminary bpp W input s).fom_mask = s.fom_mask ∧
      (preliminary bpp W input s).insertmix = s.insertmix) ∧
    (¬ (s.opcode = 6 ∨ s.opcode = 7) → (preliminary bpp W input s).mix = s.mix) := by
  constructor
  · intro h
    have h0 : ¬ s.opcode = 0 := by omega
    have h8 : ¬ s.opcode = 8 := by omega
    have h3 : ¬ s.opcode = 3 := by omega
    unfold preliminary
    simp [h0, h8, h3, h, CVALn_snd, CVALn_fst_lit]
  · intro h
    unfold preliminary
    simp only [CVALn_snd]
    split_ifs <;> rfl

theorem bytes_map_mod {l : List Nat} (h : Bytes l) : l.map (fun b => b % 256) = l := by
  induction l with
  | nil => rfl
  | cons a as ih =>
    have ha : a < 256 := h a (List.mem_cons_self _ _)
    rw [List.map_cons, Nat.mod_eq_of_lt ha, ih (fun b hb => h b (List.mem_cons_of_mem _ hb))]

theorem bytes_pxor {a m : List Nat} (ha : Bytes a) (hm : Bytes m) : Bytes (pxor a m) := by
  unfold pxor
  induction a generalizing m with
  | nil => intro b hb; simp at hb
  | cons p ps ih =>
    cases m with
    | nil => intro b hb; simp at hb
    | cons q qs =>
      intro b hb
      simp only [List.zipWith_cons_cons, List.mem_cons] at hb
      rcases hb with hb | hb
      · rw [hb]
        exact @Nat.xor_lt_two_pow p q 8 (ha p (List.mem_cons_self _ _))
          (hm q (List.mem_cons_self _ _))
      · exact ih (fun b hb => ha b (List.mem_cons_of_mem _ hb))
          (fun b hb => hm b (List.mem_cons_of_mem _ hb)) b hb

theorem bytes_pvAt {bpp W : Nat} {log : List Write} (h : ByteLog log) (i : Nat) :
    Bytes (pvAt bpp W log i) := by
  unfold pvAt
  split_ifs
  · intro b hb
    have := List.eq_of_mem_replicate hb
    omega
  · cases hq : log[i - W]? with
    | none => intro b hb; simp at hb
    | some e => exact h e (List.getElem?_mem hq)

theorem bytes_lit (bpp : Nat) (input : Nat → Nat) (p j : Nat) : Bytes (lit bpp input p j) := by
  intro b hb
  unfold lit at hb
  obtain ⟨i, _, rfl⟩ := List.mem_map.mp hb
  exact Nat.mod_lt _ (by decide)

theorem byteLog_stable (bpp : Nat) : StoreStable bpp (fun _ log => ByteLog log) := by
  intro out log line x v _ h e he
  rcases List.mem_append.mp he with h1 | h1
  · exact h e h1
  · rw [List.mem_singleton.mp h1]
    intro b hb
    obtain ⟨a, _, rfl⟩ := List.mem_map.mp hb
    exact Nat.mod_lt _ (by decide)

/-- `MASK_UPDATE` before pixel `j` of a run without forced mask whose mask bytes start
at `p0`: the mask is the byte `j / 8`, tested at bit `j % 8`. -/
theorem MASK_UPDATE_read (input : Nat → Nat) (t : State) (j p0 : Nat) (hf : t.fom_mask = 0)
    (hp : t.pos = p0 + (j + 7) / 8) (h0 : j = 0 → t.mixmask = 0)
    (h1 : 0 < j → t.mask = input (p0 + (j - 1) / 8) % 256 ∧ t.mixmask = 2 ^ ((j - 1) % 8)) :
    (MASK_UPDATE input t).mask = input (p0 + j / 8) % 256 ∧
      (MASK_UPDATE input t).mixmask = 2 ^ (j % 8) ∧
      (MASK_UPDATE input t).pos = p0 + (j + 8) / 8 ∧
      (MASK_UPDATE input t).fom_mask = 0 ∧ (MASK_UPDATE input t).count = t.count := by
  rcases Nat.eq_zero_or_pos j with hz | hpos
  · subst hz
    have hm := h0 rfl
    unfold MASK_UPDATE
    simp [hm, hf, hp]
  · obtain ⟨hm1, hm2⟩ := h1 hpos
    have he : (j - 1) % 8 < 8 := Nat.mod_lt _ (by decide)
    obtain ⟨_, _, b3⟩ := pow_bits ((j - 1) % 8) he
    rcases Nat.lt_or_ge ((j - 1) % 8) 7 with h7 | h7
    · have hj8 : j % 8 = (j - 1) % 8 + 1 := by omega
      obtain ⟨c1, _, _⟩ := pow_bits ((j - 1) % 8 + 1) (by omega)
      unfold MASK_UPDATE
      simp only [hm2, b3]
      rw [if_neg c1]
      refine ⟨?_, by rw [hj8], ?_, hf, rfl⟩
      · show t.mask = _
        rw [hm1]
        congr 2
        omega
      · show t.pos = _
        rw [hp]
        omega
    · have he7 : (j - 1) % 8 = 7 := by omega
      have hj8 : j % 8 = 0 := by omega
      have c0 : (2 ^ 7 <<< 1 &&& 255 : Nat) = 0 := by decide
      rw [he7] at hm2
      unfold MASK_UPDATE
      simp only [hm2, c0, hf]
      simp only [if_true, ne_eq, not_true_eq_false, if_false, CVAL_fst, CVAL_snd, hj8, hp]
      refine ⟨?_, rfl, ?_, trivial, trivial⟩
      · congr 2
        omega
      · omega

/-- The pixels of a FillOrMix run without forced mask, in terms of the trace at the end
of the run: pixel `i` is decided by bit `i % 8` of the mask byte `i / 8`. -/
theorem flat_fom {bpp W H : Nat} (input : Nat → Nat) (hW : 0 < W) (N k : Nat) (s : State)
    (hs : Inv bpp W H s) (hc : s.count = N) (hf : s.fom_mask = 0) (hm : s.mixmask = 0)
    (hr : N ≤ room W s) (hk : N < k) :
    (flat bpp W (kindStmt bpp input 2) k s).1 = true ∧
      (flat bpp W (kindStmt bpp input 2) k s).2.pos = s.pos + (N + 7) / 8 ∧
      (flat bpp W (kindStmt bpp input 2) k s).2.log.length = s.log.length + N ∧
      ∀ i, i < N → ∃ e, (flat bpp W (kindStmt bpp input 2) k s).2.log[s.log.length + i]? = some e ∧
        e.px = (if input (s.pos + i / 8) % 256 &&& 2 ^ (i % 8) ≠ 0 then
            pxor (pvAt bpp W (flat bpp W (kindStmt bpp input 2) k s).2.log (s.log.length + i))
              s.mix
          else pvAt bpp W (flat bpp W (kindStmt bpp input 2) k s).2.log
            (s.log.length + i)).map (fun b => b % 256) := by
  have key := flat_steps (H := H) (stmt_kindStmt bpp input 2) hW
    (fun j t => t.count = N - j ∧ t.fom_mask = 0 ∧ t.mix = s.mix ∧
      t.pos = s.pos + (j + 7) / 8 ∧ (j = 0 → t.mixmask = 0) ∧
      (0 < j → t.mask = input (s.pos + (j - 1) / 8) % 256 ∧ t.mixmask = 2 ^ ((j - 1) % 8)) ∧
      s.log <+: t.log ∧ t.log.length = s.log.length + j ∧
      ∀ i, i < j → ∃ e, t.log[s.log.length + i]? = some e ∧
        e.px = (if input (s.pos + i / 8) % 256 &&& 2 ^ (i % 8) ≠ 0 then
            pxor (pvAt bpp W t.log (s.log.length + i)) s.mix
          else pvAt bpp W t.log (s.log.length + i)).map (fun b => b % 256)) N
    (fun j t hj hp => by have := hp.1; omega)
    (fun t hp => by have := hp.1; omega)
    (fun j t t1 hj _ hp ho hi1 hx1 => by
      obtain ⟨p1, p2, p3, p4, p5, p6, p7, p8, p9⟩ := hp
      obtain ⟨q1, q2, q3, q4, q5, q6, q7⟩ := openRow_fields ho
      obtain ⟨m1, m2, m3, m4, m5⟩ := MASK_UPDATE_read input t1 j s.pos (q5.trans p2)
        (q4.trans p4) (fun h => q7.trans (p5 h))
        (fun h => ⟨q6.trans (p6 h).1, q7.trans (p6 h).2⟩)
      have hkeep := MASK_UPDATE_keep input t1
      have hst : kindStmt bpp input 2 t1 =
          stFillOrMix bpp input (MASK_UPDATE input t1).prevline t1 := by
        rw [hkeep.prevline]
        simp [kindStmt]
      rw [hst]
      unfold stFillOrMix
      simp only []
      generalize MASK_UPDATE input t1 = u at m1 m2 m3 m4 m5 hkeep
      have hinv := hi1.of_same hkeep.toSame (Lens.of_keep hkeep hi1.toLens)
      have hxu : u.x < W := by rw [hkeep.x]; exact hx1
      have hlogu : u.log = t.log := hkeep.log.trans q1
      have hmixu : u.mix = s.mix := (hkeep.mix.trans q3).trans p3
      have hpre : ∀ (e0 : Write) (i : Nat), i ≤ j →
          pvAt bpp W (t.log ++ [e0]) (s.log.length + i) = pvAt bpp W t.log (s.log.length + i) := by
        intro e0 i hi
        apply pvAt_stable (List.prefix_append _ _)
        omega
      rw [m1, m2]
      by_cases hbit : input (s.pos + j / 8) % 256 &&& 2 ^ (j % 8) ≠ 0
      · rw [if_pos hbit, stMix_eq hinv hxu, hlogu, hmixu, p8]
        refine ⟨by simp only [advance, poke]; omega, m4, hmixu, ?_, fun h => by omega,
          fun _ => ⟨by simpa using m1, by simpa using m2⟩, ?_, ?_, ?_⟩
        · show u.pos = _
          rw [m3]
        · simp only [advance, poke, hlogu]
          exact p7.trans (List.prefix_append _ _)
        · simp only [advance, poke, hlogu, List.length_append, List.length_singleton, p8]
          omega
        · simp only [advance, poke, hlogu]
          apply log_snoc_index p8
            (fun i e => e.px = (if input (s.pos + i / 8) % 256 &&& 2 ^ (i % 8) ≠ 0 then
                pxor (pvAt bpp W (t.log ++ [Write.mk u.line u.x ((pxor (pvAt bpp W t.log
                  (s.log.length + j)) s.mix).map (fun b => b % 256))]) (s.log.length + i)) s.mix
              else pvAt bpp W (t.log ++ [Write.mk u.line u.x ((pxor (pvAt bpp W t.log
                  (s.log.length + j)) s.mix).map (fun b => b % 256))])
                (s.log.length + i)).map (fun b => b % 256))
          · intro i hi
            obtain ⟨e, g1, g2⟩ := p9 i hi
            exact ⟨e, g1, by rw [hpre _ i (by omega)]; exact g2⟩
          · show _ = List.map _ (if _ then _ else _)
            rw [if_pos hbit, hpre _ j (Nat.le_refl _)]
      · rw [if_neg hbit, stFill_eq hinv hxu, hlogu, p8]
        refine ⟨by simp only [advance, poke]; omega, m4, hmixu, ?_, fun h => by omega,
          fun _ => ⟨by simpa using m1, by simpa using m2⟩, ?_, ?_, ?_⟩
        · show u.pos = _
          rw [m3]
        · simp only [advance, poke, hlogu]
          exact p7.trans (List.prefix_append _ _)
        · simp only [advance, poke, hlogu, List.length_append, List.length_singleton, p8]
          omega
        · simp only [advance, poke, hlogu]
          apply log_snoc_index p8
            (fun i e => e.px = (if input (s.pos + i / 8) % 256 &&& 2 ^ (i % 8) ≠ 0 then
                pxor (pvAt bpp W (t.log ++ [Write.mk u.line u.x ((pvAt bpp W t.log
                  (s.log.length + j)).map (fun b => b % 256))]) (s.log.length + i)) s.mix
              else pvAt bpp W (t.log ++ [Write.mk u.line u.x ((pvAt bpp W t.log
                  (s.log.length + j)).map (fun b => b % 256))])
                (s.log.length + i)).map (fun b => b % 256))
          · intro i hi
            obtain ⟨e, g1, g2⟩ := p9 i hi
            exact ⟨e, g1, by rw [hpre _ i (by omega)]; exact g2⟩
          · show _ = List.map _ (if _ then _ else _)
            rw [if_neg hbit, hpre _ j (Nat.le_refl _)])
    N 0 k s (by omega) hs hr hk
    ⟨by omega, hf, rfl, by omega, fun _ => hm, fun h => by omega, List.prefix_rfl, by omega,
      fun i hi => by omega⟩
  obtain ⟨k1, ⟨_, _, _, k4, _, _, _, k8, k9⟩, _⟩ := key
  exact ⟨k1, k4, k8, k9⟩

theorem preliminary_kind2 (bpp W : Nat) (input : Nat → Nat) (s : State) (h : s.opcode = 2) :
    preliminary bpp W input s = s := by
  unfold preliminary
  simp [h]

/-- C15: let a run start in a state that satisfies the cursor invariant and whose mix
colour and trace consist of bytes, let its code byte resolve to kind 2, or to kind 7
(FillOrMix after a mix operand of `bpp` bytes), with resolved count `N`, and let at
least `N` pixel positions be left.  Then the body runs as kind 2 without forced mask,
returns without failure and consumes exactly `(N + 7) / 8` bytes after the operands:
the mask bytes.  Pixel `i` of the run is the XOR of the mix colour with the pixel at
the same column of the previous row (`pvAt`) if bit `i % 8` of mask byte `i / 8` is
set, and that previous-row pixel otherwise, the zero pixel standing for it in the
bottom row; the formula does not refer to the column, so the bit cursor runs on
across scanline wraps. -/
theorem C15_fill_or_mix (bpp W H : Nat) (input : Nat → Nat) (s : State) (N : Nat)
    (hW : 0 < W) (hs : Inv bpp W H s)
    (hk : (resolve input s).opcode = 2 ∨ (resolve input s).opcode = 7)
    (hc : (header bpp W input s).count = N) (hr : N ≤ room W s)
    (hbm : Bytes s.mix) (hbl : ByteLog s.log) :
    (header bpp W input s).opcode = 2 ∧ (header bpp W input s).fom_mask = 0 ∧
    ((resolve input s).opcode = 2 →
      (header bpp W input s).pos = (resolve input s).pos ∧
      (header bpp W input s).mix = s.mix) ∧
    ((resolve input s).opcode = 7 →
      (header bpp W input s).pos = (resolve input s).pos + bpp ∧
      (header bpp W input s).mix = lit bpp input (resolve input s).pos 0) ∧
    (run bpp W input s).1 = true ∧
    (run bpp W input s).2.pos = (header bpp W input s).pos + (N + 7) / 8 ∧
    (run bpp W input s).2.log.length = s.log.length + N ∧
    ∀ i, i < N → ∃ e, (run bpp W input s).2.log[s.log.length + i]? = some e ∧
      e.px = (if input ((header bpp W input s).pos + i / 8) % 256 &&& 2 ^ (i % 8) ≠ 0 then
          pxor (pvAt bpp W (run bpp W input s).2.log (s.log.length + i))
            (header bpp W input s).mix
        else pvAt bpp W (run bpp W input s).2.log (s.log.length + i)) ∧
      (s.log.length + i < W →
        pvAt bpp W (run bpp W input s).2.log (s.log.length + i) = List.replicate bpp 0) := by
  obtain ⟨h1, h2, _⟩ := header_spec (W := W) input hs
  have hroom : N ≤ room W (header bpp W input s) := by rw [room_same h2]; exact hr
  have hfuel := Nat.lt_of_le_of_lt hroom (fuel_gt_room W (header bpp W input s))
  obtain ⟨_, _, _, rmix, rfom⟩ := resolve_bicolor input s
  obtain ⟨pm1, pm2⟩ := preliminary_mix bpp W input (resolve input s)
  have hop : (header bpp W input s).opcode = 2 := by
    rw [header_eq]
    show (preliminary bpp W input (resolve input s)).opcode = 2
    rw [preliminary_opcode]
    rcases hk with h | h <;> simp [h]
  have hfom : (header bpp W input s).fom_mask = 0 := by
    rw [header_eq]
    show (preliminary bpp W input (resolve input s)).fom_mask = 0
    rcases hk with h | h
    · rw [preliminary_kind2 bpp W input _ h]
      exact rfom
    · rw [(pm1 (Or.inr h)).2.2.2.2.1]
      exact rfom
  have h2c : (resolve input s).opcode = 2 →
      (header bpp W input s).pos = (resolve input s).pos ∧
      (header bpp W input s).mix = s.mix := by
    intro h
    rw [header_eq]
    show (preliminary bpp W input (resolve input s)).pos = _ ∧
      (preliminary bpp W input (resolve input s)).mix = _
    rw [preliminary_kind2 bpp W input _ h]
    exact ⟨rfl, rmix⟩
  have h7c : (resolve input s).opcode = 7 →
      (header bpp W input s).pos = (resolve input s).pos + bpp ∧
      (header bpp W input s).mix = lit bpp input (resolve input s).pos 0 := by
    intro h
    rw [header_eq]
    exact ⟨(pm1 (Or.inr h)).2.1, (pm1 (Or.inr h)).1⟩
  have hbh : Bytes (header bpp W input s).mix := by
    rcases hk with h | h
    · rw [(h2c h).2]
      exact hbm
    · rw [(h7c h).2]
      exact bytes_lit _ _ _ _
  have hbF : ByteLog (run bpp W input s).2.log :=
    run_stable input hW (byteLog_stable bpp) hs hbl
  have e := run_eq_flat input hW hs 2 (by unfold hasBody; omega) hop (by omega)
  obtain ⟨f1, f2, f3, f4⟩ :=
    flat_fom (H := H) input hW N _ (header bpp W input s) h1 hc hfom (by rw [header_eq])
      hroom hfuel
  rw [← e] at f1 f2 f3 f4
  rw [h2.log] at f3 f4
  refine ⟨hop, hfom, h2c, h7c, f1, f2, f3, fun i hi => ?_⟩
  obtain ⟨e0, g1, g2⟩ := f4 i hi
  refine ⟨e0, g1, ?_, fun hlt => ?_⟩
  · rw [g2]
    split_ifs
    · exact bytes_map_mod (bytes_pxor (bytes_pvAt hbF _) hbh)
    · exact bytes_map_mod (bytes_pvAt hbF _)
  · unfold pvAt
    rw [if_pos hlt]
    rfl

/-- C15 (witness): width 4, height 2, the stream `41 05`: a FillOrMix run of 8 pixels
with the single mask byte `05`. -/
theorem C15_witness :
    0 < 4 ∧ Inv 1 4 2 (init 1 (fun _ => 0) 4 2) ∧
    ((resolve (bytes [0x41, 0x05]) (init 1 (fun _ => 0) 4 2)).opcode = 2 ∨
      (resolve (bytes [0x41, 0x05]) (init 1 (fun _ => 0) 4 2)).opcode = 7) ∧
    (header 1 4 (bytes [0x41, 0x05]) (init 1 (fun _ => 0) 4 2)).count = 8 ∧
    8 ≤ room 4 (init 1 (fun _ => 0) 4 2) ∧
    Bytes (init 1 (fun _ => 0) 4 2).mix ∧ ByteLog (init 1 (fun _ => 0) 4 2).log ∧
    (run 1 4 (bytes [0x41, 0x05]) (init 1 (fun _ => 0) 4 2)).2.pos =
      (header 1 4 (bytes [0x41, 0x05]) (init 1 (fun _ => 0) 4 2)).pos + (8 + 7) / 8 ∧
    (run 1 4 (bytes [0x41, 0x05]) (init 1 (fun _ => 0) 4 2)).2.log.map Write.px =
      [[0xff], [0], [0xff], [0], [0xff], [0], [0xff], [0]] :=
  ⟨by decide, init_inv 1 (fun _ => 0) 4 2, by decide, by decide, by decide, by decide,
    by decide,
    (C15_fill_or_mix 1 4 2 (bytes [0x41, 0x05]) (init 1 (fun _ => 0) 4 2) 8 (by decide)
      (init_inv 1 (fun _ => 0) 4 2) (by decide) (by decide) (by decide) (by decide)
      (by decide)).2.2.2.2.2.1,
    by decide⟩

/-! ## The cursor property at every point of a decode (C16) -/

theorem MASK_UPDATE_bicolor (input : Nat → Nat) (s : State) :
    (MASK_UPDATE input s).bicolor = s.bicolor := by
  unfold MASK_UPDATE
  simp only []
  split_ifs <;> rfl

theorem stFill_bicolor (bpp : Nat) (p : Option Nat) (s : State) :
    (stFill bpp p s).bicolor = s.bicolor := by
  cases p <;> rfl

theorem stMix_bicolor (bpp : Nat) (p : Option Nat) (s : State) :
    (stMix bpp p s).bicolor = s.bicolor := by
  cases p <;> rfl

theorem stFillOrMix_bicolor (bpp : Nat) (input : Nat → Nat) (p : Option Nat) (s : State) :
    (stFillOrMix bpp input p s).bicolor = s.bicolor := by
  unfold stFillOrMix
  simp only []
  split_ifs
  · rw [stMix_bicolor, MASK_UPDATE_bicolor]
  · rw [stFill_bicolor, MASK_UPDATE_bicolor]

theorem stCopy_bicolor (bpp : Nat) (input : Nat → Nat) (s : State) :
    (stCopy bpp input s).bicolor = s.bicolor := by
  unfold stCopy
  simp only [CVALn_snd]
  rfl

/-- A statement that does not assign the toggle leaves it as it is through `REPEAT`. -/
theorem REPEAT_bicolor {W : Nat} {st : State → State} (hst : ∀ s, (st s).bicolor = s.bicolor) :
    ∀ (m : Nat) (s : State), (REPEAT W st m s).bicolor = s.bicolor := by
  intro m
  induction m with
  | zero => intro s; rfl
  | succ m ih =>
    intro s
    by_cases hc : 0 < s.count ∧ s.x < W
    · have hr : REPEAT W st (m + 1) s = REPEAT W st m (advance (st s)) := by
        simp only [REPEAT, hc, and_self, if_true]
      rw [hr, ih]
      exact hst s
    · have hr : REPEAT W st (m + 1) s = s := by
        simp only [REPEAT, hc, if_false]
      rw [hr]

/-- Inside a Bicolor run the toggle is set only while the count is positive. -/
theorem REPEAT_toggle (bpp W : Nat) :
    ∀ (m : Nat) (s : State), s.opcode = 8 → Toggle s →
      Toggle (REPEAT W (stBicolor bpp) m s) := by
  intro m
  induction m with
  | zero => intro s _ ht; exact ht
  | succ m ih =>
    intro s h8 ht
    by_cases hc : 0 < s.count ∧ s.x < W
    · have hr : REPEAT W (stBicolor bpp) (m + 1) s =
          REPEAT W (stBicolor bpp) m (advance (stBicolor bpp s)) := by
        simp only [REPEAT, hc, and_self, if_true]
      rw [hr]
      apply ih
      · unfold stBicolor
        split <;> exact h8
      · unfold stBicolor
        split
        · exact Or.inl rfl
        · refine Or.inr ⟨h8, ?_⟩
          show 0 < s.count + 1 - 1
          omega
    · have hr : REPEAT W (stBicolor bpp) (m + 1) s = s := by
        simp only [REPEAT, hc, if_false]
      rw [hr]
      exact ht

theorem insertMix_bicolor (bpp : Nat) (s : State) : (insertMix bpp s).bicolor = s.bicolor := by
  unfold insertMix
  split
  · exact stMix_bicolor bpp _ s
  · rfl

theorem bodySwitch_toggle {bpp W : Nat} {input : Nat → Nat} {s s2 : State} (ht : Toggle s)
    (h : bodySwitch bpp W input s = some s2) : Toggle s2 := by
  have hb : s.opcode ≠ 8 → s.bicolor = false := by
    intro h8
    rcases ht with h0 | h0
    · exact h0
    · exact absurd h0.1 h8
  unfold bodySwitch at h
  split_ifs at h with c0 c1 c2 c3 c4 c8 cd ce
  · rw [← Option.some.inj h]
    left
    rw [REPEAT_bicolor (stFill_bicolor bpp _), insertMix_bicolor]
    exact hb (by omega)
  · rw [← Option.some.inj h]
    left
    rw [REPEAT_bicolor (stMix_bicolor bpp _)]
    exact hb (by omega)
  · rw [← Option.some.inj h]
    left
    rw [REPEAT_bicolor (stFillOrMix_bicolor bpp input _)]
    exact hb (by omega)
  · rw [← Option.some.inj h]
    left
    rw [@REPEAT_bicolor W (stColor bpp) (fun _ => rfl)]
    exact hb (by omega)
  · rw [← Option.some.inj h]
    left
    rw [REPEAT_bicolor (stCopy_bicolor bpp input)]
    exact hb (by omega)
  · rw [← Option.some.inj h]
    exact REPEAT_toggle bpp W _ s c8 ht
  · rw [← Option.some.inj h]
    left
    rw [@REPEAT_bicolor W (stWhite bpp) (fun _ => rfl)]
    exact hb (by omega)
  · rw [← Option.some.inj h]
    left
    rw [@REPEAT_bicolor W (stBlack bpp) (fun _ => rfl)]
    exact hb (by omega)

theorem body_toggle {bpp W : Nat} (input : Nat → Nat) :
    ∀ (n : Nat) (s : State), Toggle s → Toggle (body bpp W input n s).2 := by
  intro n
  induction n with
  | zero => intro s ht; exact ht
  | succ n ih =>
    intro s ht
    by_cases hc : 0 < s.count
    · cases ho : openRow bpp W s with
      | none =>
        have e : body bpp W input (n + 1) s = (false, s) := by
          simp only [body, hc, if_true, ho]
        rw [e]; exact ht
      | some s1 =>
        obtain ⟨x, hh, pl, l, rfl⟩ := openRow_eq ho
        have ht1 : Toggle { s with x := x, height := hh, prevline := pl, line := l } := ht
        cases hb : bodySwitch bpp W input
            { s with x := x, height := hh, prevline := pl, line := l } with
        | none =>
          have e : body bpp W input (n + 1) s =
              (false, { s with x := x, height := hh, prevline := pl, line := l }) := by
            simp only [body, hc, if_true, ho, hb]
          rw [e]; exact ht1
        | some s2 =>
          have e : body bpp W input (n + 1) s = body bpp W input n s2 := by
            simp only [body, hc, if_true, ho, hb]
          rw [e]
          exact ih s2 (bodySwitch_toggle ht1 hb)
    · have e : body bpp W input (n + 1) s = (true, s) := by
        simp only [body, hc, if_false]
      rw [e]; exact ht

theorem preliminary_bicolor (bpp W : Nat) (input : Nat → Nat) (s : State) :
    (preliminary bpp W input s).bicolor = s.bicolor := by
  unfold preliminary
  simp only [CVALn_snd]
  split_ifs <;> rfl

theorem header_bicolor (bpp W : Nat) (input : Nat → Nat) (s : State) :
    (header bpp W input s).bicolor = s.bicolor := by
  rw [header_eq]
  exact (preliminary_bicolor bpp W input _).trans (resolve_bicolor input s).1

/-- A run that starts with the toggle in its initial phase and does not fail ends
with the toggle in its initial phase. -/
theorem run_toggle {bpp W H : Nat} (input : Nat → Nat) (hW : 0 < W) {s : State}
    (hs : Inv bpp W H s) (hb : s.bicolor = false) (hok : (run bpp W input s).1 = true) :
    (run bpp W input s).2.bicolor = false := by
  have ht : Toggle (run bpp W input s).2 :=
    body_toggle input _ _ (Or.inl ((header_bicolor bpp W input s).trans hb))
  have hc := (run_spec input hW hs).2.2.2.1 hok
  rcases ht with h | h
  · exact h
  · omega

theorem runs_toggle {bpp W H : Nat} (input : Nat → Nat) (size : Nat) (hW : 0 < W) :
    ∀ (n : Nat) (s : State), Inv bpp W H s → s.bicolor = false →
      (runs bpp W input size n s).ok = true → (runs bpp W input size n s).st.bicolor = false := by
  intro n
  induction n with
  | zero => intro s _ hb _; exact hb
  | succ n ih =>
    intro s hs hb hok
    by_cases hp : s.pos < size
    · have r1 := (run_spec input hW hs).1
      have r2 := run_toggle input hW hs hb
      cases hr : run bpp W input s with
      | mk b s1 =>
        rw [hr] at r1 r2
        cases b with
        | false =>
          have e : runs bpp W input size (n + 1) s = { ok := false, st := s1 } := by
            simp only [runs, hp, if_true, hr]
          rw [e] at hok
          exact Bool.noConfusion hok
        | true =>
          have e : runs bpp W input size (n + 1) s = runs bpp W input size n s1 := by
            simp only [runs, hp, if_true, hr]
          rw [e] at hok ⊢
          exact ih s1 r1 (r2 rfl) hok
    · have e : runs bpp W input size (n + 1) s = { ok := true, st := s } := by
        simp only [runs, hp, if_false]
      rw [e]
      exact hb

/-- C17: let `s` be the state in which a decode with positive width starts a run, that
is, the state after `n` passes of the outer loop none of which failed.  Then the
Bicolor toggle is in its initial phase in `s`.  If the run is a Bicolor run (kind 8)
of encoded count `N` and at least `2 * N` pixel positions are left, the run returns
without failure, writes exactly `2 * N` pixels, pixel `i` being the colour read first
for even `i` and the colour read second for odd `i`, whatever the column at which
the run starts, and leaves the toggle in its initial phase.  Every run that does not
fail leaves the toggle in its initial phase. -/
theorem C17_bicolor_toggle (bpp W H : Nat) (out input : Nat → Nat) (size n N : Nat)
    (hW : 0 < W) (hok : (runs bpp W input size n (init bpp out W H)).ok = true) :
    (runs bpp W input size n (init bpp out W H)).st.bicolor = false ∧
    ((run bpp W input (runs bpp W input size n (init bpp out W H)).st).1 = true →
      (run bpp W input (runs bpp W input size n (init bpp out W H)).st).2.bicolor = false) ∧
    ((header bpp W input (runs bpp W input size n (init bpp out W H)).st).opcode = 8 →
      (header bpp W input (runs bpp W input size n (init bpp out W H)).st).count = N →
      2 * N ≤ room W (runs bpp W input size n (init bpp out W H)).st →
      (run bpp W input (runs bpp W input size n (init bpp out W H)).st).1 = true ∧
      (run bpp W input (runs bpp W input size n (init bpp out W H)).st).2.bicolor = false ∧
      (run bpp W input (runs bpp W input size n (init bpp out W H)).st).2.count = 0 ∧
      (run bpp W input (runs bpp W input size n (init bpp out W H)).st).2.log.length =
        (runs bpp W input size n (init bpp out W H)).st.log.length + 2 * N ∧
      ∀ i, i < 2 * N →
        ∃ e, (run bpp W input (runs bpp W input size n (init bpp out W H)).st).2.log[
            (runs bpp W input size n (init bpp out W H)).st.log.length + i]? = some e ∧
          e.px = if i % 2 = 0 then
              lit bpp input (resolve input (runs bpp W input size n (init bpp out W H)).st).pos 0
            else
              lit bpp input
                (resolve input (runs bpp W input size n (init bpp out W H)).st).pos 1) := by
  have h0 := init_inv bpp out W H
  have hs := (runs_spec (H := H) input size hW n _ h0).1
  have hb := runs_toggle input size hW n _ h0 rfl hok
  refine ⟨hb, run_toggle input hW hs hb, fun hop hc hr => ?_⟩
  obtain ⟨f1, _, f3, f4, _, f6, f7⟩ := run_bicolor input hW N hs hop hc hb hr
  obtain ⟨_, c1, c2, _⟩ := header_kind8 bpp W input _ hop
  rw [c1, c2] at f7
  exact ⟨f1, f4, f3, f6, f7⟩

/-- C17 (witness): width 3, height 2, the stream `E2 AA BB 61 CC E1 DD EE`: a Bicolor
run of two pairs that wraps to the second row, a Color run, and a second Bicolor run,
at whose start the toggle is in its initial phase. -/
theorem C17_witness :
    0 < 3 ∧
    (runs 1 3 (bytes [0xE2, 0xAA, 0xBB, 0x61, 0xCC, 0xE1, 0xDD, 0xEE]) 8 2
      (init 1 (fun _ => 0) 3 2)).ok = true ∧
    (runs 1 3 (bytes [0xE2, 0xAA, 0xBB, 0x61, 0xCC, 0xE1, 0xDD, 0xEE]) 8 2
      (init 1 (fun _ => 0) 3 2)).st.bicolor = false ∧
    (runs 1 3 (bytes [0xE2, 0xAA, 0xBB, 0x61, 0xCC, 0xE1, 0xDD, 0xEE]) 8 2
      (init 1 (fun _ => 0) 3 2)).st.log.map Write.px = [[0xAA], [0xBB], [0xAA], [0xBB], [0xCC]] :=
  ⟨by decide, by decide,
    (C17_bicolor_toggle 1 3 2 (fun _ => 0)
      (bytes [0xE2, 0xAA, 0xBB, 0x61, 0xCC, 0xE1, 0xDD, 0xEE]) 8 2 1 (by decide)
      (by decide)).1,
    by decide⟩

/-! ## Termination: the loops never run out of passes (C18) -/

/-- `REPEAT` makes at most `width - x` passes: more passes allowed change nothing. -/
theorem REPEAT_fuel {bpp W : Nat} {st : State → State} (hst : Stmt bpp st) :
    ∀ (m m1 : Nat) (s : State), Lens bpp s → W - s.x ≤ m → W - s.x ≤ m1 →
      REPEAT W st m s = REPEAT W st m1 s := by
  intro m
  induction m with
  | zero =>
    intro m1 s _ h _
    have hc : ¬ (0 < s.count ∧ s.x < W) := by omega
    cases m1 with
    | zero => rfl
    | succ m1 => simp only [REPEAT, hc, if_false]
  | succ m ih =>
    intro m1 s hl h h1
    by_cases hc : 0 < s.count ∧ s.x < W
    · cases m1 with
      | zero => omega
      | succ m1 =>
        obtain ⟨t, v, e, _, hk⟩ := hst s hl
        have hlt := Lens.of_keep hk hl
        have hx : (advance (st s)).x = s.x + 1 := by
          rw [e]
          show t.x + 1 = s.x + 1
          rw [hk.x]
        have hl1 : Lens bpp (advance (st s)) := by
          rw [e]
          exact ⟨hlt.c1, hlt.c2, hlt.mx⟩
        have e1 : REPEAT W st (m + 1) s = REPEAT W st m (advance (st s)) := by
          simp only [REPEAT, hc, and_self, if_true]
        have e2 : REPEAT W st (m1 + 1) s = REPEAT W st m1 (advance (st s)) := by
          simp only [REPEAT, hc, and_self, if_true]
        rw [e1, e2]
        exact ih m1 _ hl1 (by omega) (by omega)
    · have e1 : REPEAT W st (m + 1) s = s := by simp only [REPEAT, hc, if_false]
      rw [e1]
      cases m1 with
      | zero => rfl
      | succ m1 => simp only [REPEAT, hc, if_false]

/-- The run body makes at most `room` passes: every pass that does not return writes
a pixel. -/
theorem body_fuel {bpp W H : Nat} (input : Nat → Nat) (hW : 0 < W) :
    ∀ (k k1 : Nat) (s : State), Inv bpp W H s → room W s < k → room W s < k1 →
      body bpp W input k s = body bpp W input k1 s := by
  intro k
  induction k with
  | zero => intro k1 s _ h _; omega
  | succ k ih =>
    intro k1 s hs hk hk1
    cases k1 with
    | zero => omega
    | succ k1 =>
      by_cases hc : 0 < s.count
      · cases ho : openRow bpp W s with
        | none => simp only [body, hc, if_true, ho]
        | some s1 =>
          obtain ⟨o1, _, o3, o4, o5, o6, _⟩ := openRow_spec hs hW ho
          cases hb : bodySwitch bpp W input s1 with
          | none => simp only [body, hc, if_true, ho, hb]
          | some s2 =>
            obtain ⟨b1, _, _, b4, _⟩ := bodySwitch_spec o1 o3 (by rw [o5]; exact hc) hb
            have r1 := o1.room_eq
            have r2 := b1.room_eq
            have e1 : body bpp W input (k + 1) s = body bpp W input k s2 := by
              simp only [body, hc, if_true, ho, hb]
            have e2 : body bpp W input (k1 + 1) s = body bpp W input k1 s2 := by
              simp only [body, hc, if_true, ho, hb]
            rw [e1, e2]
            exact ih k1 s2 b1 (by omega) (by omega)
      · simp only [body, hc, if_false]

/-- C18: in a decode with positive width no loop needs more passes than the bound it
is run with.  The outer loop makes at most `size` passes, and each pass moves the
input cursor forward; the body loop of a run makes at most as many passes as pixel
positions are left, because a pass that does not return writes at least one pixel;
`REPEAT` makes at most `width - x` passes, and a pass of the Bicolor statement that
increments the count still moves `x` forward; the decoder writes at most
`width * height` pixels in a call. -/
theorem C18_termination (bpp W H : Nat) (out input : Nat → Nat) (size : Nat) (hW : 0 < W) :
    (∀ n, size ≤ n →
      runs bpp W input size n (init bpp out W H) = rle_decode bpp out W H input size) ∧
    (rle_decode bpp out W H input size).st.log.length ≤ W * H ∧
    (∀ u : State, u.bicolor = false →
      (advance (stBicolor bpp u)).count = u.count ∧ (advance (stBicolor bpp u)).x = u.x + 1) ∧
    ∀ n s, s = (runs bpp W input size n (init bpp out W H)).st →
      s.pos < (run bpp W input s).2.pos ∧
      (∀ k, room W (header bpp W input s) < k →
        body bpp W input k (header bpp W input s) = run bpp W input s) ∧
      ∀ k b, b = (body bpp W input k (header bpp W input s)).2 → 0 < b.count →
        ∀ t, openRow bpp W b = some t →
          (∀ st m, Stmt bpp st → W - t.x ≤ m → REPEAT W st m t = REPEAT W st (W - t.x) t) ∧
          (∀ st m, Stmt bpp st → W - (insertMix bpp t).x ≤ m →
            REPEAT W st m (insertMix bpp t) =
              REPEAT W st (W - (insertMix bpp t).x) (insertMix bpp t)) ∧
          ∀ t2, bodySwitch bpp W input t = some t2 →
            b.log.length < t2.log.length ∧ room W t2 < room W b := by
  have h0 := init_inv bpp out W H
  refine ⟨fun n hn => ?_, ?_, fun u hu => ?_, fun n s hs => ?_⟩
  · have h4 := (runs_spec (H := H) input size hW size _ h0).2.2.2.1
    exact runs_extend input hW size size (Nat.le_refl _) size n _ h0
      (by simp [init]) (by simp only [init]; omega) (fun hok => h4 (by simp [init]) hok)
  · rw [Nat.mul_comm]
    exact (decode_spec bpp H out input size hW).1.log_le
  · unfold stBicolor
    rw [hu]
    exact ⟨by show u.count + 1 - 1 = u.count; omega, rfl⟩
  · have h1 : Inv bpp W H s := by
      rw [hs]
      exact (runs_spec (H := H) input size hW n _ h0).1
    have h2 := (header_spec (W := W) input h1).1
    refine ⟨(run_spec input hW h1).2.2.1, fun k hk => ?_, fun k b hb hc t ht => ?_⟩
    · exact body_fuel input hW k _ _ h2 hk (fuel_gt_room W _)
    · have h3 : Inv bpp W H b := by
        rw [hb]
        exact (body_spec input hW k _ h2).1
      obtain ⟨o1, _, o3, o4, o5, o6, _⟩ := openRow_spec h3 hW ht
      have h5 := (insertMix_spec o1 o3).1
      refine ⟨fun st m hst hm => REPEAT_fuel hst m _ t o1.toLens hm (Nat.le_refl _),
        fun st m hst hm => REPEAT_fuel hst m _ _ h5.toLens hm (Nat.le_refl _),
        fun t2 h2 => ?_⟩
      obtain ⟨b1, _, _, b4, _⟩ := bodySwitch_spec o1 o3 (by rw [o5]; exact hc) h2
      have r1 := o1.room_eq
      have r2 := b1.room_eq
      rw [o4] at b4 r1
      exact ⟨b4, by omega⟩

/-- C18 (witness): width 4, height 1 and the Bicolor run `E2 AA BB`; any number of
passes from 3 on gives the result of the decoder. -/
theorem C18_witness :
    0 < 4 ∧
    runs 1 4 (bytes [0xE2, 0xAA, 0xBB]) 3 7 (init 1 (fun _ => 0) 4 1) =
      rle_decode 1 (fun _ => 0) 4 1 (bytes [0xE2, 0xAA, 0xBB]) 3 ∧
    (rle_decode 1 (fun _ => 0) 4 1 (bytes [0xE2, 0xAA, 0xBB]) 3).st.log.length = 4 :=
  ⟨by decide,
    (C18_termination 1 4 1 (fun _ => 0) (bytes [0xE2, 0xAA, 0xBB]) 3 (by decide)).1 7
      (by decide),
    by decide⟩

/-! ## The rows that were not opened are not touched (C19) -/

theorem CVALn_out (input : Nat → Nat) (n : Nat) (s : State) (o : Nat → Nat) :
    CVALn input n { s with output := o } =
      ((CVALn input n s).1, { (CVALn input n s).2 with output := o }) := by
  apply Prod.ext
  · rw [CVALn_fst, CVALn_fst]
  · rw [CVALn_snd, CVALn_snd]

theorem opcodeForm_out (input : Nat → Nat) (s : State) (o : Nat → Nat) :
    opcodeForm input { s with output := o } =
      ({ (opcodeForm input s).1 with output := o }, (opcodeForm input s).2) := by
  unfold opcodeForm
  simp only [CVAL]
  split_ifs <;> rfl

theorem countAdjust_out (input : Nat → Nat) (s : State) (offset : Nat) (o : Nat → Nat) :
    countAdjust input { s with output := o } offset =
      { countAdjust input s offset with output := o } := by
  unfold countAdjust
  simp only [CVAL]
  split_ifs <;> rfl

theorem preliminary_out (bpp W : Nat) (input : Nat → Nat) (s : State) (o : Nat → Nat) :
    preliminary bpp W input { s with output := o } =
      { preliminary bpp W input s with output := o } := by
  unfold preliminary
  simp only [CVALn_out, CVALn_snd, CVALn_fst]
  split_ifs <;> rfl

/-- The header of a run does not read the output. -/
theorem header_out (bpp W : Nat) (input : Nat → Nat) (s : State) (o : Nat → Nat) :
    header bpp W input { s with output := o } = { header bpp W input s with output := o } := by
  unfold header
  simp only []
  have e : ({ { s with output := o } with fom_mask := 0 } : State) =
      { { s with fom_mask := 0 } with output := o } := rfl
  rw [e, opcodeForm_out, countAdjust_out, preliminary_out]

theorem MASK_UPDATE_out (input : Nat → Nat) (s : State) (o : Nat → Nat) :
    MASK_UPDATE input { s with output := o } = { MASK_UPDATE input s with output := o } := by
  unfold MASK_UPDATE
  simp only [CVAL]
  split_ifs <;> rfl

theorem openRow_out (bpp W : Nat) (s : State) (o : Nat → Nat) :
    openRow bpp W { s with output := o } =
      (openRow bpp W s).map (fun u => { u with output := o }) := by
  unfold openRow
  simp only []
  split_ifs <;> rfl

theorem stFill_out {bpp W H : Nat} {s : State} {o : Nat → Nat} (hs : Inv bpp W H s)
    (hs1 : Inv bpp W H { s with output := o }) (hx : s.x < W) :
    ∃ o1, stFill bpp s.prevline { s with output := o } =
      { stFill bpp s.prevline s with output := o1 } := by
  have e2 := stFill_eq hs1 hx
  rw [stFill_eq hs hx]
  exact ⟨_, e2⟩

theorem stMix_out {bpp W H : Nat} {s : State} {o : Nat → Nat} (hs : Inv bpp W H s)
    (hs1 : Inv bpp W H { s with output := o }) (hx : s.x < W) :
    ∃ o1, stMix bpp s.prevline { s with output := o } =
      { stMix bpp s.prevline s with output := o1 } := by
  have e2 := stMix_eq hs1 hx
  rw [stMix_eq hs hx]
  exact ⟨_, e2⟩

theorem stFillOrMix_out {bpp W H : Nat} (input : Nat → Nat) {s : State} {o : Nat → Nat}
    (hs : Inv bpp W H s) (hs1 : Inv bpp W H { s with output := o }) (hx : s.x < W) :
    ∃ o1, stFillOrMix bpp input s.prevline { s with output := o } =
      { stFillOrMix bpp input s.prevline s with output := o1 } := by
  have hk := MASK_UPDATE_keep input s
  have hk1 := MASK_UPDATE_keep input { s with output := o }
  have hu := hs.of_same hk.toSame (Lens.of_keep hk hs.toLens)
  have hu1 := hs1.of_same hk1.toSame (Lens.of_keep hk1 hs1.toLens)
  rw [MASK_UPDATE_out] at hu1
  have hxu : (MASK_UPDATE input s).x < W := by rw [hk.x]; exact hx
  unfold stFillOrMix
  simp only [MASK_UPDATE_out]
  rw [← hk.prevline]
  split_ifs
  · exact stMix_out hu hu1 hxu
  · exact stFill_out hu hu1 hxu

theorem stBicolor_out (bpp : Nat) (s : State) (o : Nat → Nat) :
    ∃ o1, stBicolor bpp { s with output := o } = { stBicolor bpp s with output := o1 } := by
  unfold stBicolor
  simp only []
  split_ifs
  · exact ⟨_, rfl⟩
  · exact ⟨_, rfl⟩

theorem stCopy_out (bpp : Nat) (input : Nat → Nat) (s : State) (o : Nat → Nat) :
    ∃ o1, stCopy bpp input { s with output := o } = { stCopy bpp input s with output := o1 } := by
  unfold stCopy
  simp only [CVALn_out]
  exact ⟨_, rfl⟩

/-- A statement that writes the same pixel whatever the output holds does so through
`REPEAT`. -/
theorem REPEAT_out {bpp W H : Nat} {st : State → State} (hst : Stmt bpp st) (p : Option Nat)
    (hsim : ∀ (s : State) (o : Nat → Nat), Inv bpp W H s → Inv bpp W H { s with output := o } →
      s.x < W → s.prevline = p → ∃ o1, st { s with output := o } = { st s with output := o1 }) :
    ∀ (m : Nat) (s : State) (o : Nat → Nat), Inv bpp W H s →
      Inv bpp W H { s with output := o } → s.prevline = p →
      ∃ o1, REPEAT W st m { s with output := o } = { REPEAT W st m s with output := o1 } := by
  intro m
  induction m with
  | zero => intro s o _ _ _; exact ⟨o, rfl⟩
  | succ m ih =>
    intro s o hs hs1 hp
    by_cases hc : 0 < s.count ∧ s.x < W
    · have hc1 : 0 < ({ s with output := o } : State).count ∧
          ({ s with output := o } : State).x < W := hc
      have e : REPEAT W st (m + 1) s = REPEAT W st m (advance (st s)) := by
        simp only [REPEAT, hc, and_self, if_true]
      have e1 : REPEAT W st (m + 1) { s with output := o } =
          REPEAT W st m (advance (st { s with output := o })) := by
        simp only [REPEAT, hc1, and_self, if_true]
      obtain ⟨o1, f1⟩ := hsim s o hs hs1 hc.2 hp
      obtain ⟨t, v, g, hv, hk⟩ := hst s hs.toLens
      obtain ⟨t1, v1, g1, hv1, hk1⟩ := hst { s with output := o } hs1.toLens
      have i0 : Inv bpp W H (advance (st s)) := by
        rw [g]
        exact Inv.step hs hc.2 hk hv
      have i1 : Inv bpp W H (advance (st { s with output := o })) := by
        rw [g1]
        exact Inv.step hs1 hc.2 hk1 hv1
      have hp1 : (advance (st s)).prevline = p := by
        rw [g]
        exact hk.prevline.trans hp
      rw [f1] at i1
      rw [e, e1, f1]
      exact ih (advance (st s)) o1 i0 i1 hp1
    · have hc1 : ¬ (0 < ({ s with output := o } : State).count ∧
          ({ s with output := o } : State).x < W) := hc
      have e : REPEAT W st (m + 1) s = s := by simp only [REPEAT, hc, if_false]
      have e1 : REPEAT W st (m + 1) { s with output := o } = { s with output := o } := by
        simp only [REPEAT, hc1, if_false]
      rw [e, e1]
      exact ⟨o, rfl⟩

theorem insertMix_out {bpp W H : Nat} {s : State} {o : Nat → Nat} (hs : Inv bpp W H s)
    (hs1 : Inv bpp W H { s with output := o }) (hx : s.x < W) :
    ∃ o1, insertMix bpp { s with output := o } = { insertMix bpp s with output := o1 } := by
  unfold insertMix
  simp only []
  split_ifs
  · obtain ⟨o1, e⟩ := stMix_out hs hs1 hx
    rw [e]
    exact ⟨o1, rfl⟩
  · exact ⟨o, rfl⟩

theorem bodySwitch_out {bpp W H : Nat} (input : Nat → Nat) {s : State} {o : Nat → Nat}
    (hs : Inv bpp W H s) (hs1 : Inv bpp W H { s with output := o }) (hx : s.x < W) :
    ∃ o1, bodySwitch bpp W input { s with output := o } =
      (bodySwitch bpp W input s).map (fun u => { u with output := o1 }) := by
  have key : ∀ st, Stmt bpp st →
      (∀ (t : State) (o : Nat → Nat), Inv bpp W H t → Inv bpp W H { t with output := o } →
        t.x < W → t.prevline = s.prevline →
        ∃ o1, st { t with output := o } = { st t with output := o1 }) →
      ∃ o1, some (REPEAT W st (W - s.x) { s with output := o }) =
        (some (REPEAT W st (W - s.x) s)).map (fun u => { u with output := o1 }) := by
    intro st hst hsim
    obtain ⟨o1, e⟩ := REPEAT_out hst s.prevline hsim (W - s.x) s o hs hs1 rfl
    exact ⟨o1, by rw [e]; rfl⟩
  unfold bodySwitch
  simp only []
  split_ifs
  · obtain ⟨o0, e0⟩ := insertMix_out hs hs1 hx
    have i0 := (insertMix_spec hs hx).1
    have i1 := (insertMix_spec hs1 hx).1
    rw [e0] at i1
    rw [e0]
    obtain ⟨o1, e⟩ := REPEAT_out (stmt_stFill bpp (insertMix bpp s).prevline)
      (insertMix bpp s).prevline
      (fun t o ht ht1 htx hp => by rw [← hp]; exact stFill_out ht ht1 htx)
      (W - (insertMix bpp s).x) (insertMix bpp s) o0 i0 i1 rfl
    exact ⟨o1, by rw [e]; rfl⟩
  · exact key _ (stmt_stMix bpp _)
      (fun t o ht ht1 htx hp => by rw [← hp]; exact stMix_out ht ht1 htx)
  · exact key _ (stmt_stFillOrMix bpp input _)
      (fun t o ht ht1 htx hp => by rw [← hp]; exact stFillOrMix_out input ht ht1 htx)
  · exact key _ (stmt_stColor bpp) (fun t o _ _ _ _ => ⟨_, rfl⟩)
  · exact key _ (stmt_stCopy bpp input) (fun t o _ _ _ _ => stCopy_out bpp input t o)
  · exact key _ (stmt_stBicolor bpp) (fun t o _ _ _ _ => stBicolor_out bpp t o)
  · exact key _ (stmt_stWhite bpp) (fun t o _ _ _ _ => ⟨_, rfl⟩)
  · exact key _ (stmt_stBlack bpp) (fun t o _ _ _ _ => ⟨_, rfl⟩)
  · exact ⟨o, rfl⟩

theorem body_out {bpp W H : Nat} (input : Nat → Nat) (hW : 0 < W) :
    ∀ (n : Nat) (s : State) (o : Nat → Nat), Inv bpp W H s →
      Inv bpp W H { s with output := o } →
      ∃ o1, body bpp W input n { s with output := o } =
        ((body bpp W input n s).1, { (body bpp W input n s).2 with output := o1 }) := by
  intro n
  induction n with
  | zero => intro s o _ _; exact ⟨o, rfl⟩
  | succ n ih =>
    intro s o hs hs1
    by_cases hc : 0 < s.count
    · have hc1 : 0 < ({ s with output := o } : State).count := hc
      have ho1 := openRow_out bpp W s o
      cases ho : openRow bpp W s with
      | none =>
        rw [ho] at ho1
        have e : body bpp W input (n + 1) s = (false, s) := by
          simp only [body, hc, if_true, ho]
        have e1 : body bpp W input (n + 1) { s with output := o } =
            (false, { s with output := o }) := by
          simp only [body, hc1, if_true, ho1, Option.map_none']
        rw [e, e1]
        exact ⟨o, rfl⟩
      | some s1 =>
        rw [ho] at ho1
        have ho2 : openRow bpp W { s with output := o } = some { s1 with output := o } := ho1
        obtain ⟨i0, _, hx, _, hcnt, _⟩ := openRow_spec hs hW ho
        obtain ⟨i1, _⟩ := openRow_spec hs1 hW ho2
        obtain ⟨o1, hb1⟩ := bodySwitch_out input i0 i1 hx
        cases hb : bodySwitch bpp W input s1 with
        | none =>
          rw [hb] at hb1
          have e : body bpp W input (n + 1) s = (false, s1) := by
            simp only [body, hc, if_true, ho, hb]
          have e1 : body bpp W input (n + 1) { s with output := o } =
              (false, { s1 with output := o }) := by
            simp only [body, hc1, if_true, ho2, hb1, Option.map_none']
          rw [e, e1]
          exact ⟨o, rfl⟩
        | some s2 =>
          rw [hb] at hb1
          have hb2 : bodySwitch bpp W input { s1 with output := o } =
              some { s2 with output := o1 } := hb1
          have j0 := (bodySwitch_spec i0 hx (by rw [hcnt]; exact hc) hb).1
          have j1 := (bodySwitch_spec i1 hx (by rw [hcnt]; exact hc) hb2).1
          have e : body bpp W input (n + 1) s = body bpp W input n s2 := by
            simp only [body, hc, if_true, ho, hb]
          have e1 : body bpp W input (n + 1) { s with output := o } =
              body bpp W input n { s2 with output := o1 } := by
            simp only [body, hc1, if_true, ho2, hb2]
          rw [e, e1]
          exact ih s2 o1 j0 j1
    · have hc1 : ¬ 0 < ({ s with output := o } : State).count := hc
      have e : body bpp W input (n + 1) s = (true, s) := by
        simp only [body, hc, if_false]
      have e1 : body bpp W input (n + 1) { s with output := o } =
          (true, { s with output := o }) := by
        simp only [body, hc1, if_false]
      rw [e, e1]
      exact ⟨o, rfl⟩

theorem run_out {bpp W H : Nat} (input : Nat → Nat) (hW : 0 < W) {s : State} {o : Nat → Nat}
    (hs : Inv bpp W H s) (hs1 : Inv bpp W H { s with output := o }) :
    ∃ o1, run bpp W input { s with output := o } =
      ((run bpp W input s).1, { (run bpp W input s).2 with output := o1 }) := by
  have h0 := (header_spec (W := W) input hs).1
  have h1 := (header_spec (W := W) input hs1).1
  rw [header_out] at h1
  unfold run
  simp only [header_out]
  exact body_out input hW _ _ o h0 h1

theorem runs_out {bpp W H : Nat} (input : Nat → Nat) (size : Nat) (hW : 0 < W) :
    ∀ (n : Nat) (s : State) (o : Nat → Nat), Inv bpp W H s →
      Inv bpp W H { s with output := o } →
      ∃ o1, runs bpp W input size n { s with output := o } =
        { ok := (runs bpp W input size n s).ok
          st := { (runs bpp W input size n s).st with output := o1 } } := by
  intro n
  induction n with
  | zero => intro s o _ _; exact ⟨o, rfl⟩
  | succ n ih =>
    intro s o hs hs1
    by_cases hp : s.pos < size
    · have hp1 : ({ s with output := o } : State).pos < size := hp
      obtain ⟨o1, hr1⟩ := run_out input hW hs hs1
      have r0 := (run_spec input hW hs).1
      have r1 := (run_spec input hW hs1).1
      rw [hr1] at r1
      cases hr : run bpp W input s with
      | mk b s1 =>
        rw [hr] at hr1 r0 r1
        cases b with
        | false =>
          have e : runs bpp W input size (n + 1) s = { ok := false, st := s1 } := by
            simp only [runs, hp, if_true, hr]
          have e1 : runs bpp W input size (n + 1) { s with output := o } =
              { ok := false, st := { s1 with output := o1 } } := by
            simp only [runs, hp1, if_true, hr1]
          rw [e, e1]
          exact ⟨o1, rfl⟩
        | true =>
          have e : runs bpp W input size (n + 1) s = runs bpp W input size n s1 := by
            simp only [runs, hp, if_true, hr]
          have e1 : runs bpp W input size (n + 1) { s with output := o } =
              runs bpp W input size n { s1 with output := o1 } := by
            simp only [runs, hp1, if_true, hr1]
          rw [e, e1]
          exact ih s1 o1 r0 r1
    · have hp1 : ¬ ({ s with output := o } : State).pos < size := hp
      have e : runs bpp W input size (n + 1) s = { ok := true, st := s } := by
        simp only [runs, hp, if_false]
      have e1 : runs bpp W input size (n + 1) { s with output := o } =
          { ok := true, st := { s with output := o } } := by
        simp only [runs, hp1, if_false]
      rw [e, e1]
      exact ⟨o, rfl⟩

/-- C20: two decodes of the same input with the same positive width and the same height,
started on output memories `out1` and `out2` of arbitrary contents, return the same
Boolean, end with the same input cursor and the same trace of pixel stores (the same
positions in the same order with the same pixel values), agree in every other local
variable (`Sim`), and leave the same value in every output byte that a store of the
trace covers. -/
theorem C20_output_independence (bpp W H : Nat) (out1 out2 input : Nat → Nat) (size : Nat)
    (hW : 0 < W) :
    (rle_decode bpp out2 W H input size).ok = (rle_decode bpp out1 W H input size).ok ∧
    (rle_decode bpp out2 W H input size).st.pos = (rle_decode bpp out1 W H input size).st.pos ∧
    (rle_decode bpp out2 W H input size).st.log = (rle_decode bpp out1 W H input size).st.log ∧
    Sim (rle_decode bpp out1 W H input size).st (rle_decode bpp out2 W H input size).st ∧
    ∀ e ∈ (rle_decode bpp out1 W H input size).st.log, ∀ l, e.line = some l → ∀ k, k < bpp →
      (rle_decode bpp out2 W H input size).st.output (l + e.x * bpp + k) =
        (rle_decode bpp out1 W H input size).st.output (l + e.x * bpp + k) := by
  have i1 := init_inv bpp out1 W H
  have i2 := init_inv bpp out2 W H
  have hinit : init bpp out2 W H = { init bpp out1 W H with output := out2 } := rfl
  rw [hinit] at i2
  obtain ⟨o1, hr⟩ := runs_out input size hW size _ out2 i1 i2
  have hd : rle_decode bpp out2 W H input size =
      { ok := (rle_decode bpp out1 W H input size).ok
        st := { (rle_decode bpp out1 W H input size).st with output := o1 } } := hr
  have j1 := (decode_spec bpp H out1 input size hW).1
  have j2 := (decode_spec bpp H out2 input size hW).1
  have hlog : (rle_decode bpp out2 W H input size).st.log =
      (rle_decode bpp out1 W H input size).st.log := by rw [hd]
  refine ⟨by rw [hd], by rw [hd], hlog, ⟨o1, by rw [hd]⟩, fun e he l hl k hk => ?_⟩
  obtain ⟨i, hi, hie⟩ := List.getElem_of_mem he
  have hget : (rle_decode bpp out1 W H input size).st.log[i]? = some e := by
    rw [List.getElem?_eq_getElem hi, hie]
  obtain ⟨a1, a2, _, a4⟩ := j1.ent i e hget
  obtain ⟨_, _, _, b4⟩ := j2.ent i e (by rw [hlog]; exact hget)
  rw [a1] at hl
  cases hl
  rw [a2]
  have hpk := b4.trans a4.symm
  unfold peek at hpk
  exact List.map_inj_left.1 hpk k (List.mem_range.2 hk)

/-- C20 (witness): width 2, height 2, the stream `62 35 02` (a Color run that fills the
bottom row and a Fill run that copies it), decoded over a zeroed output and over an
output filled with `EE`. -/
theorem C20_witness :
    0 < 2 ∧
    (rle_decode 1 (fun _ => 0xEE) 2 2 (bytes [0x62, 0x35, 0x02]) 3).st.log =
      (rle_decode 1 (fun _ => 0) 2 2 (bytes [0x62, 0x35, 0x02]) 3).st.log ∧
    (rle_decode 1 (fun _ => 0xEE) 2 2 (bytes [0x62, 0x35, 0x02]) 3).st.log.map Write.px =
      [[0x35], [0x35], [0x35], [0x35]] :=
  ⟨by decide,
    (C20_output_independence 1 2 2 (fun _ => 0) (fun _ => 0xEE) (bytes [0x62, 0x35, 0x02]) 3
      (by decide)).2.2.1,
    by decide⟩

end Rle
